import Mathlib

/-!
# remake-repo: mirror-URL resolution and priority selection

A shallow embedding of `main.go`.  Go strings and byte slices are sequences of
bytes; they are modelled as lists of characters, one character standing for one
byte.  Every pattern and token the program uses is ASCII, so prefix tests,
substring search, replacement and splitting act on the sequence element by
element, and `.` of the regular expressions (any rune but the newline) accepts
any element but the newline.
-/

namespace RemakeRepo

/-- A Go `string` (or `[]byte`): a sequence of bytes. -/
abbrev Str := List Char

/-! ## Standard library: package `strings` / `bytes` -/

/-- The call `strings.HasPrefix(s, p)`. -/
def hasPrefix (s p : Str) : Bool := p.isPrefixOf s

/-- The call `strings.Contains(s, sub)` (also `bytes.Contains`): `sub` starts at
some position of `s`. -/
def contains : Str → Str → Bool
  | [], sub => hasPrefix [] sub
  | c :: t, sub => hasPrefix (c :: t) sub || contains t sub

/-- The scan of `strings.Replace(s, old, new, -1)`: left to right, every
non-overlapping occurrence of `old` is replaced by `new`.  The counter is the
number of bytes of the occurrence just replaced that are still to be skipped.
An empty `old` matches in front of every byte and at the end. -/
def replaceAux (old new : Str) : Nat → Str → Str
  | 0, [] => if old = [] then new else []
  | _ + 1, [] => []
  | n + 1, _ :: t => replaceAux old new n t
  | 0, c :: t =>
    if old = [] then new ++ c :: replaceAux old new 0 t
    else if hasPrefix (c :: t) old then new ++ replaceAux old new (old.length - 1) t
    else c :: replaceAux old new 0 t

/-- The call `strings.Replace(s, old, new, -1)`.  Every call of the program has a
non-empty `old`. -/
def strReplace (s old new : Str) : Str := replaceAux old new 0 s

/-- The call `strings.TrimLeft(s, "/")`: the leading slashes are removed. -/
def trimLeftSlash : Str → Str
  | [] => []
  | c :: t => if c = '/' then trimLeftSlash t else c :: t

/-- The call `bytes.Split(body, []byte("\n"))`: the pieces between newline bytes;
a body without a newline (the empty one too) is one piece. -/
def splitLines : Str → List Str
  | [] => [[]]
  | c :: t =>
    if c = '\n' then [] :: splitLines t
    else
      match splitLines t with
      | [] => [[c]]
      | l :: ls => (c :: l) :: ls

/-! ## Standard library: package `path/filepath` (Unix) -/

/-- The components of a path between its `/` separators. -/
def splitSlash : Str → List Str
  | [] => [[]]
  | c :: t =>
    if c = '/' then [] :: splitSlash t
    else
      match splitSlash t with
      | [] => [[c]]
      | l :: ls => (c :: l) :: ls

/-- One component of `filepath.Clean`, on the stack of kept components (top
first): empty and `.` components are dropped, `..` removes the component before
it, is dropped at the root, and is kept at the start of a relative path. -/
def cleanStep (rooted : Bool) (stack : List Str) (comp : Str) : List Str :=
  if comp = [] ∨ comp = ['.'] then stack
  else if comp = ['.', '.'] then
    match stack with
    | [] => if rooted then [] else [comp]
    | top :: rest => if top = ['.', '.'] then comp :: stack else rest
  else comp :: stack

/-- The call `filepath.Clean(path)`. -/
def filepathClean (path : Str) : Str :=
  let rooted := hasPrefix path ['/']
  let stack := (splitSlash path).foldl (cleanStep rooted) []
  let out := (if rooted then ['/'] else []) ++ ['/'].intercalate stack.reverse
  if out = [] then ['.'] else out

/-- The call `filepath.Join(elems...)`: the elements from the first non-empty
one on are joined with `/` and the result is cleaned; no non-empty element gives
the empty string. -/
def filepathJoin : List Str → Str
  | [] => []
  | e :: es => if e = [] then filepathJoin es else filepathClean (['/'].intercalate (e :: es))

/-! ## Standard library: package `regexp`

The three patterns of the program are sequences of literals, `.+`, one `x?` and
one capture group.  Matching is leftmost-first: the match a backtracking search
finds, with greedy `.+` and `?`. -/

/-- One item of a pattern. -/
inductive Item where
  | lit (p : Str)
  | anyPlus
  | opt (c : Char)
  | openGroup
  | closeGroup
  deriving DecidableEq

/-- A compiled pattern. -/
abbrev Regexp := List Item

/-- Greedy `.+` followed by the rest `k` of the pattern: one byte other than the
newline, then as many more as the rest allows. -/
def anyPlusK {α : Type} (k : Str → Option α) : Str → Option α
  | [] => none
  | c :: t =>
    if c = '\n' then none
    else
      match anyPlusK k t with
      | some r => some r
      | none => k t

/-- Match the pattern at the start of `s`.  `st` is the input where the group
opened, `cap` the text of the group; the result is the text of the group. -/
def matchHere : Regexp → Str → Str → Str → Option Str
  | [], _, cap, _ => some cap
  | Item.lit p :: r, st, cap, s =>
    if hasPrefix s p then matchHere r st cap (s.drop p.length) else none
  | Item.anyPlus :: r, st, cap, s => anyPlusK (matchHere r st cap) s
  | Item.opt c :: r, st, cap, s =>
    match s with
    | [] => matchHere r st cap []
    | d :: t =>
      if d = c then
        match matchHere r st cap t with
        | some x => some x
        | none => matchHere r st cap (d :: t)
      else matchHere r st cap (d :: t)
  | Item.openGroup :: r, _, cap, s => matchHere r s cap s
  | Item.closeGroup :: r, st, _, s => matchHere r st (st.take (st.length - s.length)) s

/-- The leftmost match of the pattern in `s`: the text of its capture group. -/
def findSubmatch (re : Regexp) : Str → Option Str
  | [] => matchHere re [] [] []
  | c :: t =>
    match matchHere re [] [] (c :: t) with
    | some x => some x
    | none => findSubmatch re t

/-- The call `re.MatchString(s)`. -/
def matchString (re : Regexp) (s : Str) : Bool := (findSubmatch re s).isSome

/-! ## Package-level variables -/

/-- The variable `priorityMirrorList`. -/
def priorityMirrorList : List Str :=
  ["http://mirror.bebout.net/remi/".toList,
   "http://repo1.sea.innoscale.net/remi/".toList,
   "http://mirrors.mediatemple.net/remi/".toList]

/-- The pattern `location="JP".+>(https?://.+)</url>`. -/
def xmlJPURLRe : Regexp :=
  [Item.lit "location=\"JP\"".toList, Item.anyPlus, Item.lit ">".toList, Item.openGroup,
   Item.lit "http".toList, Item.opt 's', Item.lit "://".toList, Item.anyPlus,
   Item.closeGroup, Item.lit "</url>".toList]

/-- The pattern `location=".+".+>(https?://.+)</url>`. -/
def xmlURLRe : Regexp :=
  [Item.lit "location=\"".toList, Item.anyPlus, Item.lit "\"".toList, Item.anyPlus,
   Item.lit ">".toList, Item.openGroup, Item.lit "http".toList, Item.opt 's',
   Item.lit "://".toList, Item.anyPlus, Item.closeGroup, Item.lit "</url>".toList]

/-- The pattern `http.+s3-mirror-ap-northeast-1`. -/
def s3URLRe : Regexp :=
  [Item.lit "http".toList, Item.anyPlus, Item.lit "s3-mirror-ap-northeast-1".toList]

/-- The type `config`. -/
structure config where
  Arch : Str
  ReleaseVer : Str
  ReposDir : Str
  DestPath : Str
  Bucket : Str
  Prefix : Str
  Ignores : List Str
  BasePath : Str
  deriving DecidableEq

/-- The configuration of the `default:` tags. -/
def defaultConfig : config where
  Arch := "x86_64".toList
  ReleaseVer := "7".toList
  ReposDir := "/etc/yum.repos.d".toList
  DestPath := "./dest".toList
  Bucket := "hoge".toList
  Prefix := "/mirror-repo/".toList
  Ignores := ["DEFAULT".toList, "amzn".toList]
  BasePath := "https://hoge.cloudfront.net".toList

/-! ## The functions of `main.go` -/

/-- The function `replaceURL`. -/
def replaceURL (conf : config) (url : Str) : Str :=
  let url := strReplace url "$basearch".toList conf.Arch
  let url := strReplace url "$releasever".toList conf.ReleaseVer
  let url := strReplace url "$infra".toList []
  let url := strReplace url "/repodata/repomd.xml".toList []
  url

/-- The function `makePath`. -/
def makePath (conf : config) (section_ url : Str) : Str :=
  if contains url conf.Arch then
    let res := filepathJoin [conf.Prefix, section_, conf.ReleaseVer, conf.Arch]
    replaceURL conf res
  else
    let res := filepathJoin [conf.Prefix, section_, conf.ReleaseVer]
    replaceURL conf res

/-- The function `makeBaseurl`: the configuration with its trimmed `BasePath`,
and the formatted `%s/%s`. -/
def makeBaseurl (conf : config) (section_ url : Str) : config × Str :=
  let conf := { conf with BasePath := trimLeftSlash conf.BasePath }
  (conf, conf.BasePath ++ ['/'] ++ makePath conf section_ url)

/-- The loop of `isIgnore` over the ignore list. -/
def isIgnoreLoop (name : Str) : List Str → Bool
  | [] => false
  | ignore :: rest => if hasPrefix name ignore then true else isIgnoreLoop name rest

/-- The function `isIgnore`. -/
def isIgnore (conf : config) (name : Str) : Bool := isIgnoreLoop name conf.Ignores

/-- The function `searchString`. -/
def searchString : List Str → Str → Bool
  | [], _ => false
  | line :: lines, s => if contains line s then true else searchString lines s

/-- The function `grep`: the first capture group of the first match of every
matching line. -/
def grep (lines : List Str) (r : Regexp) : List Str :=
  lines.foldl
    (fun list line =>
      match findSubmatch r line with
      | none => list
      | some g => list ++ [g])
    []

/-- The function `getPriorityURL`. -/
def getPriorityURL (urls : List Str) : List Str :=
  let res := urls.foldl (fun res url => if matchString s3URLRe url then res ++ [url] else res) []
  if res.length > 0 then res
  else
    let res := urls.foldl (fun res url => if contains url ".jp/".toList then res ++ [url] else res) res
    if res.length > 0 then res
    else
      let res := urls.foldl
        (fun res url =>
          priorityMirrorList.foldl (fun res p => if hasPrefix url p then res ++ [url] else res) res)
        res
      if res.length > 0 then res else urls

/-- The function `getUrls`. -/
def getUrls (body : Str) : List Str :=
  let lines := splitLines body
  if searchString lines "<?xml version=".toList then
    if searchString lines "location=\"JP\"".toList then grep lines xmlJPURLRe
    else grep lines xmlURLRe
  else
    lines.foldl (fun res l => if hasPrefix l "#".toList then res else res ++ [l]) []

/-! ## The loop of `readWriteRepoFile`

The INI file (package `go-ini`), the HTTP client and the random generator are
outside the program.  The answer of the HTTP client is a function from the
requested URL to the body it returns, when it returns one; the random generator
is the number it draws.

The loop body is embedded twice.  `sectionRound` is the body as a function of
the two strings its reads of the library return, and it lists the calls it makes
on the library, so it holds for whatever the library does in a call.
`processSection` runs the body on a section that stands alone: a section whose
name is not `parent.child` of another section of the file (for a key that
`parent.child` lacks, `go-ini` answers with the key of `parent`) and whose
values hold no `%(name)s` reference (which `String()` expands). -/

/-- A section of an INI file that stands alone: its name and its own keys with
their values. -/
structure Section where
  name : Str
  keys : List (Str × Str)
  deriving DecidableEq

/-- The call `section.Key(k).String()` on a section that stands alone: the value
of the key; a key the section does not have is created with the empty value. -/
def Section.Key (s : Section) (k : Str) : Section × Str :=
  match s.keys.lookup k with
  | some v => (s, v)
  | none => ({ s with keys := s.keys ++ [(k, [])] }, [])

/-- The call `section.Key(k).SetValue(v)` on a key the section has. -/
def Section.SetValue (s : Section) (k v : Str) : Section :=
  { s with keys := s.keys.map (fun kv => if kv.1 = k then (k, v) else kv) }

/-- The call `section.DeleteKey(k)`. -/
def Section.DeleteKey (s : Section) (k : Str) : Section :=
  { s with keys := s.keys.filter (fun kv => kv.1 ≠ k) }

/-- Whether the section has the key. -/
def Section.HasKey (s : Section) (k : Str) : Bool := (s.keys.lookup k).isSome

/-- How a piece of the program ends: with a value, in `log.Fatal`, or in a
run-time panic. -/
inductive Outcome (α : Type) where
  | done (a : α)
  | fatal
  | panicked
  deriving DecidableEq

/-- The function `make3syncCmdLine`; `rnd` is the number the generator draws, and
`rand.Intn(n)` panics for `n = 0`. -/
def make3syncCmdLine (conf : config) (section_ : Str) (urls : List Str) (rnd : Nat) :
    Outcome Str :=
  if urls.length = 0 then Outcome.panicked
  else
    let i := rnd % urls.length
    match urls.get? i with
    | none => Outcome.panicked
    | some u =>
      Outcome.done ("yums3sync --source '".toList ++ replaceURL conf u ++ "' --bucket '".toList
        ++ conf.Bucket ++ "' --prefix '".toList ++ makePath conf section_ u ++ "'".toList)

/-- The function `getMirroList`; `fetch` is the body `http.Get` returns for a
URL, `none` when the request or the read fails. -/
def getMirroList (conf : config) (fetch : Str → Option Str) (url : Str) : Outcome (List Str) :=
  let url := replaceURL conf url
  match fetch url with
  | none => Outcome.fatal
  | some body => Outcome.done (getPriorityURL (getUrls body))

/-- What one round of the loop leaves: the configuration (`makeBaseurl` trims its
`BasePath`), the section, and the lines printed. -/
structure Round where
  conf : config
  sec : Section
  printed : List Str
  deriving DecidableEq

/-- One round of the loop of `readWriteRepoFile` over the sections. -/
def processSection (conf : config) (fetch : Str → Option Str) (rnd : Nat) (sec : Section) :
    Outcome Round :=
  if isIgnore conf sec.name then Outcome.done ⟨conf, sec, []⟩
  else
    let (sec, mirrorlist) := sec.Key "mirrorlist".toList
    let (sec, baseurl) := sec.Key "baseurl".toList
    let urls : Outcome (List Str) :=
      if mirrorlist.length > 0 then getMirroList conf fetch mirrorlist
      else Outcome.done [baseurl]
    match urls with
    | Outcome.fatal => Outcome.fatal
    | Outcome.panicked => Outcome.panicked
    | Outcome.done urls =>
      match make3syncCmdLine conf sec.name urls rnd with
      | Outcome.fatal => Outcome.fatal
      | Outcome.panicked => Outcome.panicked
      | Outcome.done cmd =>
        match urls with
        | [] => Outcome.panicked
        | u0 :: _ =>
          if u0.length > 0 then
            let (conf1, b) := makeBaseurl conf sec.name u0
            Outcome.done ⟨conf1, (sec.SetValue "baseurl".toList b).DeleteKey "mirrorlist".toList,
              [cmd]⟩
          else Outcome.done ⟨conf, sec.DeleteKey "mirrorlist".toList, []⟩

/-- A call of the loop body on the INI library. -/
inductive IniCall where
  /-- The read `section.Key(key).String()`; `go-ini` adds the key, with the empty
  value, when neither the section nor a parent section has it. -/
  | keyString (section_ key : Str)
  /-- The write `iniData.Section(section).Key(key).SetValue(value)`. -/
  | keySetValue (section_ key value : Str)
  /-- The call `iniData.Section(section).DeleteKey(key)`. -/
  | deleteKey (section_ key : Str)
  deriving DecidableEq

/-- What one round of the loop does: the configuration it leaves, its calls on
the INI library in their order, and the lines it prints. -/
structure RoundTrace where
  conf : config
  calls : List IniCall
  printed : List Str
  deriving DecidableEq

/-- One round of the loop of `readWriteRepoFile` for the section `name`;
`mirrorlist` and `baseurl` are the strings that `section.Key("mirrorlist").String()`
and `section.Key("baseurl").String()` return. -/
def sectionRound (conf : config) (fetch : Str → Option Str) (rnd : Nat)
    (name mirrorlist baseurl : Str) : Outcome RoundTrace :=
  if isIgnore conf name then Outcome.done ⟨conf, [], []⟩
  else
    let urls : Outcome (List Str) :=
      if mirrorlist.length > 0 then getMirroList conf fetch mirrorlist
      else Outcome.done [baseurl]
    match urls with
    | Outcome.fatal => Outcome.fatal
    | Outcome.panicked => Outcome.panicked
    | Outcome.done urls =>
      match make3syncCmdLine conf name urls rnd with
      | Outcome.fatal => Outcome.fatal
      | Outcome.panicked => Outcome.panicked
      | Outcome.done cmd =>
        match urls with
        | [] => Outcome.panicked
        | u0 :: _ =>
          if u0.length > 0 then
            let (conf1, b) := makeBaseurl conf name u0
            Outcome.done ⟨conf1,
              [IniCall.keyString name "mirrorlist".toList,
               IniCall.keyString name "baseurl".toList,
               IniCall.keySetValue name "baseurl".toList b,
               IniCall.deleteKey name "mirrorlist".toList],
              [cmd]⟩
          else
            Outcome.done ⟨conf,
              [IniCall.keyString name "mirrorlist".toList,
               IniCall.keyString name "baseurl".toList,
               IniCall.deleteKey name "mirrorlist".toList],
              []⟩

/-! ## Predicates and auxiliary definitions of the statements and proofs -/

/-- The test of the third tier: the URL starts with an entry of the list. -/
def startsWithPriorityMirror (url : Str) : Bool :=
  priorityMirrorList.any (fun p => hasPrefix url p)

/-- No non-empty end of `a` is a start of `b` or starts with `b`: a copy of `b`
and a copy of `a` that begins later cannot overlap or touch in a way that lets
one continue the other. -/
def apart (a b : Str) : Bool :=
  a.tails.all (fun a1 => a1.isEmpty || (!hasPrefix b a1 && !hasPrefix a1 b))

/-- The double quote. -/
def dq : Char := Char.ofNat 34

/-- A `<url>` line of a metalink document: its attributes and its URL. -/
structure UrlLine where
  protocol : Str
  kind : Str
  location : Str
  preference : Str
  url : Str
  deriving DecidableEq

/-- The line `<url protocol="P" type="T" location="CC" preference="N">U</url>`. -/
def UrlLine.render (l : UrlLine) : Str :=
  "<url protocol=\"".toList ++ l.protocol ++ "\" type=\"".toList ++ l.kind
    ++ "\" location=\"".toList ++ l.location ++ "\" preference=\"".toList ++ l.preference
    ++ "\">".toList ++ l.url ++ "</url>".toList

/-- An attribute value: non-empty and free of the double quote, `<` and `>`. -/
def attrOk (a : Str) : Bool :=
  !a.isEmpty && a.all (fun c => c != dq && c != '<' && c != '>')

/-- The line is as the metalink format has it: the four attribute values are
non-empty and free of the double quote, `<` and `>`; the URL is `http://` or
`https://` and at least one byte more, free of `<`, `>`, the double quote and
the newline. -/
def UrlLine.wellFormed (l : UrlLine) : Bool :=
  attrOk l.protocol && attrOk l.kind && attrOk l.location && attrOk l.preference
    && ((hasPrefix l.url "http://".toList && decide (l.url.length > 7))
      || (hasPrefix l.url "https://".toList && decide (l.url.length > 8)))
    && l.url.all (fun c => c != '<' && c != '>' && c != dq && c != '\n')

/-- The pieces of a string between the occurrences of a separator. -/
def piecesOf (sep : Char) : Str → List Str
  | [] => [[]]
  | c :: t =>
    if c = sep then [] :: piecesOf sep t
    else
      match piecesOf sep t with
      | [] => [[c]]
      | p :: ps => (c :: p) :: ps

/-- Some piece that is not among the last two ends with `u` and is followed by
the piece `w`. -/
def hasPair (u w : Str) : List Str → Bool
  | p :: q :: r :: rest => (u.isSuffixOf p && q == w) || hasPair u w (q :: r :: rest)
  | _ => false

/-- The items both XML patterns end with: `>(https?://.+)</url>`. -/
def urlTailItems : Regexp :=
  [Item.lit ">".toList, Item.openGroup, Item.lit "http".toList, Item.opt 's',
   Item.lit "://".toList, Item.anyPlus, Item.closeGroup, Item.lit "</url>".toList]

/-- A path component that `filepath.Clean` keeps as it is: non-empty, without a
slash, and neither `.` nor `..`. -/
def plainComp (c : Str) : Bool :=
  !c.isEmpty && !c.contains '/' && c != ['.'] && c != ['.', '.']

/-! ## Basic facts about the library functions -/

theorem hasPrefix_iff (s p : Str) : hasPrefix s p = true ↔ p <+: s := by
  simp [hasPrefix]

theorem contains_iff (s sub : Str) : contains s sub = true ↔ sub <:+: s := by
  induction s with
  | nil =>
    simp only [contains, hasPrefix_iff, List.prefix_nil, List.infix_nil]
  | cons c t ih =>
    simp only [contains, Bool.or_eq_true, hasPrefix_iff, ih]
    constructor
    · rintro (h | h)
      · exact h.isInfix
      · exact h.trans (List.suffix_cons c t).isInfix
    · intro h
      rcases List.infix_cons_iff.mp h with h | h
      · exact Or.inl h
      · exact Or.inr h

/-- A loop that appends the elements passing a test is a filter. -/
theorem foldl_append_filter {α : Type} (p : α → Bool) (l acc : List α) :
    l.foldl (fun res x => if p x then res ++ [x] else res) acc = acc ++ l.filter p := by
  induction l generalizing acc with
  | nil => simp
  | cons x t ih =>
    simp only [List.foldl_cons, ih, List.filter_cons]
    by_cases h : p x = true
    · simp [h]
    · simp [h]

theorem filter_eq_nil_of_none {α : Type} (p : α → Bool) (l : List α)
    (h : ∀ x ∈ l, p x = false) : l.filter p = [] := by
  rw [List.filter_eq_nil_iff]
  intro x hx
  simp [h x hx]

theorem filter_ne_nil_of_mem {α : Type} (p : α → Bool) (l : List α) (x : α) (hx : x ∈ l)
    (h : p x = true) : l.filter p ≠ [] := by
  intro hnil
  rw [List.filter_eq_nil_iff] at hnil
  exact hnil x hx h

/-- No entry of `priorityMirrorList` is a prefix of another one. -/
theorem priorityMirrorList_not_comparable :
    ∀ p ∈ priorityMirrorList, ∀ q ∈ priorityMirrorList, p ≠ q → ¬ p <+: q := by
  decide

/-- A URL starts with at most one entry of `priorityMirrorList`. -/
theorem hasPrefix_priorityMirror_unique (url p q : Str) (hp : p ∈ priorityMirrorList)
    (hq : q ∈ priorityMirrorList) (h1 : hasPrefix url p = true) (h2 : hasPrefix url q = true) :
    p = q := by
  by_contra hne
  rw [hasPrefix_iff] at h1 h2
  rcases List.prefix_or_prefix_of_prefix h1 h2 with h | h
  · exact priorityMirrorList_not_comparable p hp q hq hne h
  · exact priorityMirrorList_not_comparable q hq p hp (Ne.symm hne) h

/-- The inner loop of the third tier appends the URL once when it starts with an
entry of the list, and not at all otherwise. -/
theorem inner_loop_eq (url : Str) (res : List Str) :
    priorityMirrorList.foldl (fun res p => if hasPrefix url p then res ++ [url] else res) res
      = if startsWithPriorityMirror url then res ++ [url] else res := by
  have huniq := hasPrefix_priorityMirror_unique url
  have h12 := huniq "http://mirror.bebout.net/remi/".toList
    "http://repo1.sea.innoscale.net/remi/".toList (by decide) (by decide)
  have h13 := huniq "http://mirror.bebout.net/remi/".toList
    "http://mirrors.mediatemple.net/remi/".toList (by decide) (by decide)
  have h23 := huniq "http://repo1.sea.innoscale.net/remi/".toList
    "http://mirrors.mediatemple.net/remi/".toList (by decide) (by decide)
  have n12 : "http://mirror.bebout.net/remi/".toList
      ≠ "http://repo1.sea.innoscale.net/remi/".toList := by decide
  have n13 : "http://mirror.bebout.net/remi/".toList
      ≠ "http://mirrors.mediatemple.net/remi/".toList := by decide
  have n23 : "http://repo1.sea.innoscale.net/remi/".toList
      ≠ "http://mirrors.mediatemple.net/remi/".toList := by decide
  unfold startsWithPriorityMirror priorityMirrorList
  simp only [List.foldl_cons, List.foldl_nil, List.any_cons, List.any_nil, Bool.or_false]
  generalize hasPrefix url "http://mirror.bebout.net/remi/".toList = a at h12 h13 ⊢
  generalize hasPrefix url "http://repo1.sea.innoscale.net/remi/".toList = b at h12 h23 ⊢
  generalize hasPrefix url "http://mirrors.mediatemple.net/remi/".toList = c at h13 h23 ⊢
  cases a <;> cases b <;> cases c <;> first
    | rfl
    | exact absurd (h12 rfl rfl) n12
    | exact absurd (h13 rfl rfl) n13
    | exact absurd (h23 rfl rfl) n23

/-- The third loop of `getPriorityURL` is a filter. -/
theorem third_loop_eq (urls acc : List Str) :
    urls.foldl
        (fun res url =>
          priorityMirrorList.foldl (fun res p => if hasPrefix url p then res ++ [url] else res) res)
        acc
      = acc ++ urls.filter startsWithPriorityMirror := by
  have h : (fun (res : List Str) (url : Str) =>
      priorityMirrorList.foldl (fun res p => if hasPrefix url p then res ++ [url] else res) res)
      = fun res url => if startsWithPriorityMirror url then res ++ [url] else res := by
    funext res url
    exact inner_loop_eq url res
  rw [h, foldl_append_filter]

/-- The function `getPriorityURL` as a cascade of filters. -/
theorem getPriorityURL_eq (urls : List Str) :
    getPriorityURL urls =
      if urls.filter (matchString s3URLRe) ≠ [] then urls.filter (matchString s3URLRe)
      else if urls.filter (fun u => contains u ".jp/".toList) ≠ [] then
        urls.filter (fun u => contains u ".jp/".toList)
      else if urls.filter startsWithPriorityMirror ≠ [] then urls.filter startsWithPriorityMirror
      else urls := by
  unfold getPriorityURL
  simp only [foldl_append_filter, third_loop_eq, List.nil_append, gt_iff_lt, List.length_pos]
  by_cases h1 : urls.filter (matchString s3URLRe) = []
  · rw [h1, if_neg (not_not.mpr rfl), if_neg (not_not.mpr rfl), List.nil_append]
    by_cases h2 : urls.filter (fun u => contains u ".jp/".toList) = []
    · rw [h2, if_neg (not_not.mpr rfl), if_neg (not_not.mpr rfl), List.nil_append]
    · rw [if_pos h2, if_pos h2]
  · rw [if_pos h1, if_pos h1]

theorem splitLines_ne_nil (body : Str) : splitLines body ≠ [] := by
  cases body with
  | nil => simp [splitLines]
  | cons c t =>
    unfold splitLines
    split
    · simp
    · split <;> simp

/-- The pieces of `splitLines`, joined with the newline, give the body back. -/
theorem intercalate_splitLines (body : Str) : ['\n'].intercalate (splitLines body) = body := by
  induction body with
  | nil => rfl
  | cons c t ih =>
    unfold splitLines
    by_cases hc : c = '\n'
    · rw [if_pos hc]
      cases hs : splitLines t with
      | nil => exact absurd hs (splitLines_ne_nil t)
      | cons l ls =>
        rw [hs] at ih
        rw [← ih, hc]
        simp [List.intercalate, List.intersperse]
    · rw [if_neg hc]
      cases hs : splitLines t with
      | nil => exact absurd hs (splitLines_ne_nil t)
      | cons l ls =>
        rw [hs] at ih
        rw [← ih]
        cases ls with
        | nil => simp [List.intercalate, List.intersperse]
        | cons m ms => simp [List.intercalate, List.intersperse]

/-- No piece of `splitLines` holds a newline. -/
theorem splitLines_no_newline (body : Str) : ∀ l ∈ splitLines body, '\n' ∉ l := by
  induction body with
  | nil =>
    intro l hl
    simp only [splitLines, List.mem_singleton] at hl
    rw [hl]
    exact List.not_mem_nil _
  | cons c t ih =>
    intro l hl
    unfold splitLines at hl
    by_cases hc : c = '\n'
    · rw [if_pos hc] at hl
      rcases List.mem_cons.mp hl with h | h
      · rw [h]; exact List.not_mem_nil _
      · exact ih l h
    · rw [if_neg hc] at hl
      cases hs : splitLines t with
      | nil =>
        rw [hs] at hl
        simp only [List.mem_singleton] at hl
        rw [hl]
        intro hmem
        simp only [List.mem_singleton] at hmem
        exact hc hmem.symm
      | cons m ms =>
        rw [hs] at hl ih
        rcases List.mem_cons.mp hl with h | h
        · rw [h]
          intro hmem
          rcases List.mem_cons.mp hmem with h1 | h1
          · exact hc h1.symm
          · exact ih m (List.mem_cons_self _ _) h1
        · exact ih l (List.mem_cons_of_mem _ h)

theorem searchString_eq_false (lines : List Str) (s : Str)
    (h : ∀ l ∈ lines, contains l s = false) : searchString lines s = false := by
  induction lines with
  | nil => rfl
  | cons l ls ih =>
    unfold searchString
    rw [h l (List.mem_cons_self _ _)]
    exact ih (fun m hm => h m (List.mem_cons_of_mem _ hm))

theorem searchString_eq_true (lines : List Str) (s l : Str) (hl : l ∈ lines)
    (h : contains l s = true) : searchString lines s = true := by
  induction lines with
  | nil => exact absurd hl (List.not_mem_nil _)
  | cons m ms ih =>
    unfold searchString
    rcases List.mem_cons.mp hl with h1 | h1
    · rw [← h1, h]; rfl
    · rw [ih h1]
      split <;> rfl

/-- The loop of `getUrls` over a plain list keeps the lines that do not start
with `#`. -/
theorem plain_loop_eq (lines acc : List Str) :
    lines.foldl (fun res l => if hasPrefix l "#".toList then res else res ++ [l]) acc
      = acc ++ lines.filter (fun l => !hasPrefix l "#".toList) := by
  induction lines generalizing acc with
  | nil => simp
  | cons x t ih =>
    rw [List.foldl_cons, ih, List.filter_cons]
    cases hasPrefix x "#".toList
    · simp
    · simp

/-! ## Facts about `strings.Replace` -/

theorem replaceAux_skip (old new : Str) (hold : old ≠ []) (n : Nat) (s : Str) :
    replaceAux old new n s = replaceAux old new 0 (s.drop n) := by
  induction n generalizing s with
  | zero => rfl
  | succ n ih =>
    cases s with
    | nil => simp [replaceAux, hold]
    | cons c t => simp only [replaceAux, List.drop_succ_cons]; exact ih t

theorem strReplace_nil (old new : Str) (hold : old ≠ []) : strReplace [] old new = [] := by
  simp [strReplace, replaceAux, hold]

theorem strReplace_cons_match (old new : Str) (hold : old ≠ []) (c : Char) (t : Str)
    (h : hasPrefix (c :: t) old = true) :
    strReplace (c :: t) old new = new ++ strReplace ((c :: t).drop old.length) old new := by
  unfold strReplace
  cases old with
  | nil => exact absurd rfl hold
  | cons o old1 =>
    simp only [replaceAux, h, if_true, if_false, List.length_cons, Nat.add_sub_cancel,
      List.drop_succ_cons, reduceCtorEq]
    rw [replaceAux_skip _ _ hold]

theorem strReplace_cons_nomatch (old new : Str) (c : Char) (t : Str)
    (h : hasPrefix (c :: t) old = false) :
    strReplace (c :: t) old new = c :: strReplace t old new := by
  have hold : old ≠ [] := by
    intro h0
    rw [h0] at h
    simp [hasPrefix] at h
  unfold strReplace
  simp [replaceAux, h, hold]

/-- A string without an occurrence of `old` is returned unchanged. -/
theorem strReplace_of_not_contains (s old new : Str) (h : contains s old = false) :
    strReplace s old new = s := by
  induction s with
  | nil =>
    have hold : old ≠ [] := by
      intro h0
      rw [h0] at h
      simp [contains, hasPrefix] at h
    exact strReplace_nil old new hold
  | cons c t ih =>
    simp only [contains, Bool.or_eq_false_iff] at h
    rw [strReplace_cons_nomatch old new c t h.1, ih h.2]

theorem apart_spec (a b : Str) (h : apart a b = true) (a1 : Str) (hs : a1 <:+ a)
    (hne : a1 ≠ []) : ¬ a1 <+: b ∧ ¬ b <+: a1 := by
  unfold apart at h
  rw [List.all_eq_true] at h
  have h1 := h a1 ((List.mem_tails a1 a).mpr hs)
  simp only [Bool.or_eq_true, List.isEmpty_iff, hne, false_or, Bool.and_eq_true,
    Bool.not_eq_true_eq_eq_false] at h1
  constructor
  · intro hp
    have := (hasPrefix_iff b a1).mpr hp
    rw [h1.1] at this
    exact Bool.false_ne_true this
  · intro hp
    have := (hasPrefix_iff a1 b).mpr hp
    rw [h1.2] at this
    exact Bool.false_ne_true this

theorem suffix_append_cases (v a b : Str) (h : v <:+ a ++ b) :
    (∃ u, u <:+ a ∧ v = u ++ b) ∨ v <:+ b := by
  induction a with
  | nil => exact Or.inr h
  | cons x a ih =>
    rcases List.suffix_cons_iff.mp h with h1 | h1
    · exact Or.inl ⟨x :: a, List.suffix_refl _, h1⟩
    · rcases ih h1 with ⟨u, hu, hv⟩ | h2
      · exact Or.inl ⟨u, hu.trans (List.suffix_cons x a), hv⟩
      · exact Or.inr h2

/-- A start of the output of a replacement that cannot meet `new` is a start of
the input. -/
theorem prefix_of_prefix_strReplace (old new : Str) (hold : old ≠ []) (t p : Str)
    (hp : ∀ a1, a1 <:+ p → a1 ≠ [] → ¬ a1 <+: new ∧ ¬ new <+: a1)
    (h : p <+: strReplace t old new) : p <+: t := by
  induction t generalizing p with
  | nil =>
    rw [strReplace_nil old new hold] at h
    exact h
  | cons c t ih =>
    cases p with
    | nil => exact List.nil_prefix
    | cons a p1 =>
      cases hm : hasPrefix (c :: t) old with
      | true =>
        rw [strReplace_cons_match old new hold c t hm] at h
        have hcmp := List.prefix_or_prefix_of_prefix h (List.prefix_append new _)
        have hno := hp (a :: p1) (List.suffix_refl _) (List.cons_ne_nil _ _)
        rcases hcmp with h1 | h1
        · exact absurd h1 hno.1
        · exact absurd h1 hno.2
      | false =>
        rw [strReplace_cons_nomatch old new c t hm] at h
        rw [List.cons_prefix_cons] at h ⊢
        refine ⟨h.1, ih p1 ?_ h.2⟩
        intro a1 hs hne
        exact hp a1 (hs.trans (List.suffix_cons a p1)) hne

/-- An occurrence of `q` in the output of a replacement, where neither `q` nor
`new` can continue the other, is an occurrence in the input at a position where
`old` does not start. -/
theorem occurrence_of_strReplace (old new q : Str) (hold : old ≠ []) (hq : q ≠ [])
    (hqn : apart q new = true) (hnq : apart new q = true) :
    ∀ (n : Nat) (s : Str), s.length ≤ n → ∀ v, v <:+ strReplace s old new → q <+: v →
      ∃ w, w <:+ s ∧ q <+: w ∧ hasPrefix w old = false := by
  intro n
  induction n with
  | zero =>
    intro s hs v hv hqv
    have hnil : s = [] := List.length_eq_zero.mp (Nat.le_zero.mp hs)
    rw [hnil, strReplace_nil old new hold] at hv
    rw [List.suffix_nil.mp hv] at hqv
    exact absurd (List.prefix_nil.mp hqv) hq
  | succ n ih =>
    intro s hs v hv hqv
    cases s with
    | nil =>
      rw [strReplace_nil old new hold] at hv
      rw [List.suffix_nil.mp hv] at hqv
      exact absurd (List.prefix_nil.mp hqv) hq
    | cons c t =>
      cases hm : hasPrefix (c :: t) old with
      | true =>
        rw [strReplace_cons_match old new hold c t hm] at hv
        have hlen : ((c :: t).drop old.length).length ≤ n := by
          have h0 : 0 < old.length := List.length_pos.mpr hold
          simp only [List.length_drop, List.length_cons] at hs ⊢
          omega
        rcases suffix_append_cases v _ _ hv with ⟨u, hu, hvu⟩ | hv1
        · by_cases hune : u = []
          · rw [hune, List.nil_append] at hvu
            obtain ⟨w, hw, hqw, hwo⟩ := ih _ hlen v (hvu ▸ List.suffix_refl _) hqv
            exact ⟨w, hw.trans (List.drop_suffix _ _), hqw, hwo⟩
          · rw [hvu] at hqv
            have hcmp := List.prefix_or_prefix_of_prefix hqv (List.prefix_append u _)
            have hno := apart_spec new q hnq u hu hune
            rcases hcmp with h1 | h1
            · exact absurd h1 hno.2
            · exact absurd h1 hno.1
        · obtain ⟨w, hw, hqw, hwo⟩ := ih _ hlen v hv1 hqv
          exact ⟨w, hw.trans (List.drop_suffix _ _), hqw, hwo⟩
      | false =>
        rw [strReplace_cons_nomatch old new c t hm] at hv
        have hlen : t.length ≤ n := by
          simp only [List.length_cons] at hs
          omega
        rcases List.suffix_cons_iff.mp hv with hv1 | hv1
        · refine ⟨c :: t, List.suffix_refl _, ?_, hm⟩
          rw [hv1] at hqv
          cases q with
          | nil => exact List.nil_prefix
          | cons a q1 =>
            rw [List.cons_prefix_cons] at hqv ⊢
            refine ⟨hqv.1, prefix_of_prefix_strReplace old new hold t q1 ?_ hqv.2⟩
            intro a1 hs1 hne1
            exact apart_spec (a :: q1) new hqn a1 (hs1.trans (List.suffix_cons a q1)) hne1
        · obtain ⟨w, hw, hqw, hwo⟩ := ih t hlen v hv1 hqv
          exact ⟨w, hw.trans (List.suffix_cons c t), hqw, hwo⟩

/-- After a replacement whose `new` and `old` cannot continue each other, no
occurrence of `old` is left. -/
theorem not_contains_strReplace_self (s old new : Str) (hold : old ≠ [])
    (hon : apart old new = true) (hno : apart new old = true) :
    contains (strReplace s old new) old = false := by
  rw [Bool.eq_false_iff]
  intro hc
  rw [contains_iff] at hc
  obtain ⟨v, hqv, hv⟩ := List.infix_iff_prefix_suffix.mp hc
  obtain ⟨w, _, hqw, hwo⟩ :=
    occurrence_of_strReplace old new old hold hold hon hno s.length s (Nat.le_refl _) v hv hqv
  rw [(hasPrefix_iff w old).mpr hqw] at hwo
  exact Bool.noConfusion hwo

/-- A replacement creates no occurrence of a token `q` when `new` and `q` cannot
continue each other. -/
theorem not_contains_strReplace_other (s old new q : Str) (hold : old ≠ []) (hq : q ≠ [])
    (hqn : apart q new = true) (hnq : apart new q = true) (h : contains s q = false) :
    contains (strReplace s old new) q = false := by
  rw [Bool.eq_false_iff]
  intro hc
  rw [contains_iff] at hc
  obtain ⟨v, hqv, hv⟩ := List.infix_iff_prefix_suffix.mp hc
  obtain ⟨w, hw, hqw, _⟩ :=
    occurrence_of_strReplace old new q hold hq hqn hnq s.length s (Nat.le_refl _) v hv hqv
  have : contains s q = true := (contains_iff s q).mpr (List.infix_iff_prefix_suffix.mpr ⟨w, hqw, hw⟩)
  rw [h] at this
  exact Bool.noConfusion this

/-! ## Facts about the pattern matcher -/

/-- When the rest of the pattern fails at every shorter end of `t`, `.+` fails
at `t`. -/
theorem anyPlusK_none {α : Type} (k : Str → Option α) (t : Str)
    (h : ∀ y, y <:+ t → y.length < t.length → k y = none) : anyPlusK k t = none := by
  induction t with
  | nil => rfl
  | cons c t ih =>
    unfold anyPlusK
    split
    · rfl
    · rw [ih (fun y hy hl => h y (hy.trans (List.suffix_cons c t))
        (Nat.lt_trans hl (Nat.lt_succ_self _)))]
      exact h t (List.suffix_cons c t) (Nat.lt_succ_self _)

/-- Greedy `.+`: when the rest of the pattern matches at `y` and at no shorter
end of `y`, `.+` takes all of a non-empty newline-free `x` in front of `y`. -/
theorem anyPlusK_greedy {α : Type} (k : Str → Option α) (x y : Str) (r : α)
    (hx : x ≠ []) (hnl : '\n' ∉ x) (hk : k y = some r)
    (h : ∀ z, z <:+ y → z.length < y.length → k z = none) :
    anyPlusK k (x ++ y) = some r := by
  induction x with
  | nil => exact absurd rfl hx
  | cons c t ih =>
    have hc : c ≠ '\n' := fun hc => hnl (hc ▸ List.mem_cons_self _ _)
    have ht : '\n' ∉ t := fun hm => hnl (List.mem_cons_of_mem _ hm)
    rw [List.cons_append]
    unfold anyPlusK
    rw [if_neg hc]
    cases t with
    | nil =>
      rw [List.nil_append, anyPlusK_none k y h]
      exact hk
    | cons d t1 => rw [ih (List.cons_ne_nil _ _) ht]

theorem matchHere_lit (p : Str) (r : Regexp) (st cap s : Str) :
    matchHere (Item.lit p :: r) st cap (p ++ s) = matchHere r st cap s := by
  have h : hasPrefix (p ++ s) p = true := (hasPrefix_iff _ _).mpr (List.prefix_append p s)
  simp only [matchHere, h, if_true, List.drop_left]

theorem matchHere_lit_fail (p : Str) (r : Regexp) (st cap s : Str)
    (h : hasPrefix s p = false) : matchHere (Item.lit p :: r) st cap s = none := by
  simp [matchHere, h]

theorem matchHere_opt_other (c d : Char) (r : Regexp) (st cap t : Str) (h : d ≠ c) :
    matchHere (Item.opt c :: r) st cap (d :: t) = matchHere r st cap (d :: t) := by
  simp [matchHere, h]

theorem matchHere_opt_taken (c : Char) (r : Regexp) (st cap t : Str) (x : Str)
    (h : matchHere r st cap t = some x) :
    matchHere (Item.opt c :: r) st cap (c :: t) = some x := by
  simp [matchHere, h]

/-- The end of both XML patterns, `.+)</url>`: on a non-empty newline-free `v`
followed by `</url>` at the end of the line, the group closes in front of that
`</url>`. -/
theorem matchHere_group_end (st cap v : Str) (hv : v ≠ []) (hnl : '\n' ∉ v) :
    matchHere [Item.anyPlus, Item.closeGroup, Item.lit "</url>".toList] st cap
        (v ++ "</url>".toList)
      = some (st.take (st.length - "</url>".toList.length)) := by
  have hk : ∀ z : Str, matchHere [Item.closeGroup, Item.lit "</url>".toList] st cap z
      = if hasPrefix z "</url>".toList then some (st.take (st.length - z.length)) else none := by
    intro z
    simp only [matchHere]
  have hshort : ∀ z ∈ ("</url>".toList).tails, z.length < "</url>".toList.length →
      hasPrefix z "</url>".toList = false := by decide
  show anyPlusK (matchHere [Item.closeGroup, Item.lit "</url>".toList] st cap)
    (v ++ "</url>".toList) = _
  apply anyPlusK_greedy _ _ _ _ hv hnl
  · rw [hk, if_pos (by decide)]
  · intro z hz hl
    rw [hk, hshort z ((List.mem_tails z _).mpr hz) hl]
    rfl

/-- The items `https?://.+)</url>` on `http://v</url>` or `https://v</url>`
with `v` non-empty and newline-free: the group closes in front of `</url>`. -/
theorem matchHere_url_items (st cap v : Str) (hv : v ≠ []) (hnl : '\n' ∉ v) :
    matchHere [Item.lit "http".toList, Item.opt 's', Item.lit "://".toList, Item.anyPlus,
        Item.closeGroup, Item.lit "</url>".toList] st cap
        ("http://".toList ++ v ++ "</url>".toList)
      = some (st.take (st.length - "</url>".toList.length)) ∧
    matchHere [Item.lit "http".toList, Item.opt 's', Item.lit "://".toList, Item.anyPlus,
        Item.closeGroup, Item.lit "</url>".toList] st cap
        ("https://".toList ++ v ++ "</url>".toList)
      = some (st.take (st.length - "</url>".toList.length)) := by
  have hend := matchHere_group_end st cap v hv hnl
  constructor
  · have e : "http://".toList ++ v ++ "</url>".toList
        = "http".toList ++ (':' :: ("//".toList ++ (v ++ "</url>".toList))) := by
      rw [List.append_assoc]; rfl
    rw [e, matchHere_lit, matchHere_opt_other _ _ _ _ _ _ (by decide)]
    have e2 : ':' :: ("//".toList ++ (v ++ "</url>".toList))
        = "://".toList ++ (v ++ "</url>".toList) := rfl
    rw [e2, matchHere_lit]
    exact hend
  · have e : "https://".toList ++ v ++ "</url>".toList
        = "http".toList ++ ('s' :: ("://".toList ++ (v ++ "</url>".toList))) := by
      rw [List.append_assoc]; rfl
    rw [e, matchHere_lit]
    apply matchHere_opt_taken
    rw [matchHere_lit]
    exact hend

/-- The group `(https?://.+)` followed by `</url>`: on a URL `u` that is
`http://` or `https://` and a non-empty newline-free rest, followed by `</url>`
at the end of the line, the group is `u`. -/
theorem matchHere_url_group (st0 cap u v : Str)
    (hu : u = "http://".toList ++ v ∨ u = "https://".toList ++ v)
    (hv : v ≠ []) (hnl : '\n' ∉ v) :
    matchHere [Item.openGroup, Item.lit "http".toList, Item.opt 's', Item.lit "://".toList,
        Item.anyPlus, Item.closeGroup, Item.lit "</url>".toList] st0 cap (u ++ "</url>".toList)
      = some u := by
  have htake : (u ++ "</url>".toList).take
      ((u ++ "</url>".toList).length - "</url>".toList.length) = u := by
    rw [List.length_append, Nat.add_sub_cancel, List.take_left]
  have h := matchHere_url_items (u ++ "</url>".toList) cap v hv hnl
  rw [htake] at h
  show matchHere [Item.lit "http".toList, Item.opt 's', Item.lit "://".toList,
        Item.anyPlus, Item.closeGroup, Item.lit "</url>".toList] (u ++ "</url>".toList) cap
        (u ++ "</url>".toList) = some u
  rcases hu with hu | hu
  · rw [← hu] at h
    exact h.1
  · rw [← hu] at h
    exact h.2

theorem findSubmatch_of_matchHere (re : Regexp) (s x : Str)
    (h : matchHere re [] [] s = some x) : findSubmatch re s = some x := by
  cases s with
  | nil => exact h
  | cons c t => simp only [findSubmatch, h]

/-- The search moves on over the positions where the pattern does not match. -/
theorem findSubmatch_skip (re : Regexp) (p s : Str)
    (h : ∀ y, y <:+ p → y ≠ [] → matchHere re [] [] (y ++ s) = none) :
    findSubmatch re (p ++ s) = findSubmatch re s := by
  induction p with
  | nil => rfl
  | cons c t ih =>
    have h1 := h (c :: t) (List.suffix_refl _) (List.cons_ne_nil _ _)
    rw [List.cons_append] at h1 ⊢
    simp only [findSubmatch, h1]
    exact ih (fun y hy hne => h y (hy.trans (List.suffix_cons c t)) hne)

/-- The function `grep` collects the groups of the matching lines. -/
theorem grep_eq_filterMap (lines : List Str) (r : Regexp) :
    grep lines r = lines.filterMap (findSubmatch r) := by
  unfold grep
  have h : ∀ (ls acc : List Str),
      ls.foldl (fun list line =>
        match findSubmatch r line with
        | none => list
        | some g => list ++ [g]) acc = acc ++ ls.filterMap (findSubmatch r) := by
    intro ls
    induction ls with
    | nil => intro acc; simp
    | cons l ls ih =>
      intro acc
      rw [List.foldl_cons, ih, List.filterMap_cons]
      cases findSubmatch r l with
      | none => rfl
      | some g => simp
  rw [h, List.nil_append]

theorem mem_grep (lines : List Str) (r : Regexp) (line g : Str) (hl : line ∈ lines)
    (h : findSubmatch r line = some g) : g ∈ grep lines r := by
  rw [grep_eq_filterMap, List.mem_filterMap]
  exact ⟨line, hl, h⟩

/-- The pattern `xmlJPURLRe` at `location="JP"`, some further text `a`, `>`, a
URL `u` free of `>` and `</url>` at the end of the line: the group is `u`. -/
theorem matchHere_xmlJPURLRe (a u v : Str) (ha : a ≠ []) (hanl : '\n' ∉ a)
    (hu : u = "http://".toList ++ v ∨ u = "https://".toList ++ v)
    (hv : v ≠ []) (hnl : '\n' ∉ v) (hgt : '>' ∉ u) :
    matchHere xmlJPURLRe [] []
        ("location=\"JP\"".toList ++ (a ++ (">".toList ++ (u ++ "</url>".toList))))
      = some u := by
  unfold xmlJPURLRe
  rw [matchHere_lit]
  show anyPlusK (matchHere [Item.lit ">".toList, Item.openGroup, Item.lit "http".toList,
    Item.opt 's', Item.lit "://".toList, Item.anyPlus, Item.closeGroup,
    Item.lit "</url>".toList] [] []) (a ++ (">".toList ++ (u ++ "</url>".toList))) = some u
  apply anyPlusK_greedy _ _ _ _ ha hanl
  · rw [matchHere_lit]
    exact matchHere_url_group [] [] u v hu hv hnl
  · intro z hz hl
    have hz1 : z <:+ u ++ "</url>".toList := by
      rcases List.suffix_cons_iff.mp hz with h1 | h1
      · rw [h1] at hl
        exact absurd hl (Nat.lt_irrefl _)
      · exact h1
    rcases suffix_append_cases z _ _ hz1 with ⟨w, hw, hzw⟩ | h2
    · cases w with
      | nil => rw [hzw]; rfl
      | cons c w1 =>
        have hc : c ≠ '>' := by
          intro hc
          exact hgt (hc ▸ hw.subset (List.mem_cons_self _ _))
        rw [hzw]
        apply matchHere_lit_fail
        show (('>' == c) && List.isPrefixOf [] (w1 ++ "</url>".toList)) = false
        simp [Ne.symm hc]
    · have hall : ∀ y ∈ ("</url>".toList).tails,
          matchHere [Item.lit ">".toList, Item.openGroup, Item.lit "http".toList,
            Item.opt 's', Item.lit "://".toList, Item.anyPlus, Item.closeGroup,
            Item.lit "</url>".toList] [] [] y = none := by decide
      exact hall z ((List.mem_tails z _).mpr h2)

/-- A line `<url location="JP"a>u</url>` with a non-empty `a`: the leftmost match
of `xmlJPURLRe` has the group `u`. -/
theorem findSubmatch_xmlJPURLRe (a u v : Str) (ha : a ≠ []) (hanl : '\n' ∉ a)
    (hu : u = "http://".toList ++ v ∨ u = "https://".toList ++ v)
    (hv : v ≠ []) (hnl : '\n' ∉ v) (hgt : '>' ∉ u) :
    findSubmatch xmlJPURLRe
        ("<url location=\"JP\"".toList ++ a ++ ">".toList ++ u ++ "</url>".toList)
      = some u := by
  have e : "<url location=\"JP\"".toList ++ a ++ ">".toList ++ u ++ "</url>".toList
      = "<url ".toList ++
        ("location=\"JP\"".toList ++ (a ++ (">".toList ++ (u ++ "</url>".toList)))) := by
    simp only [List.append_assoc]
    rfl
  rw [e, findSubmatch_skip]
  · exact findSubmatch_of_matchHere _ _ _ (matchHere_xmlJPURLRe a u v ha hanl hu hv hnl hgt)
  · intro y hy hne
    have hmem := (List.mem_tails y _).mpr hy
    have hall : ∀ y ∈ ("<url ".toList).tails, y ≠ [] → ∀ s : Str,
        hasPrefix (y ++ ("location=\"JP\"".toList ++ s)) "location=\"JP\"".toList = false := by
      intro y hy
      simp only [String.toList, List.tails, List.mem_cons, List.not_mem_nil, or_false] at hy
      rcases hy with h | h | h | h | h | h
      all_goals (rw [h]; intro hne s; first | rfl | exact absurd rfl hne)
    unfold xmlJPURLRe
    exact matchHere_lit_fail _ _ _ _ _ (hall y hmem hne _)

/-- Greedy `.+` followed by `k` matches exactly when some non-empty newline-free
start of the input can be taken so that `k` matches the rest. -/
theorem anyPlusK_isSome_iff {α : Type} (k : Str → Option α) (t : Str) :
    (anyPlusK k t).isSome = true ↔
      ∃ x y, t = x ++ y ∧ x ≠ [] ∧ '\n' ∉ x ∧ (k y).isSome = true := by
  constructor
  · induction t with
    | nil => intro h; exact absurd h (by simp [anyPlusK])
    | cons c t ih =>
      intro h
      unfold anyPlusK at h
      by_cases hc : c = '\n'
      · rw [if_pos hc] at h
        exact absurd h (by simp)
      · rw [if_neg hc] at h
        cases hr : anyPlusK k t with
        | some r =>
          obtain ⟨x, y, hxy, _, hnl, hk⟩ := ih (by rw [hr]; rfl)
          refine ⟨c :: x, y, by rw [hxy]; rfl, List.cons_ne_nil _ _, ?_, hk⟩
          intro hm
          rcases List.mem_cons.mp hm with h1 | h1
          · exact hc h1.symm
          · exact hnl h1
        | none =>
          rw [hr] at h
          refine ⟨[c], t, rfl, List.cons_ne_nil _ _, ?_, h⟩
          intro hm
          exact hc (List.mem_singleton.mp hm).symm
  · rintro ⟨x, y, hxy, hx, hnl, hk⟩
    rw [hxy]
    clear hxy
    induction x with
    | nil => exact absurd rfl hx
    | cons c x ih =>
      have hc : c ≠ '\n' := fun hc => hnl (hc ▸ List.mem_cons_self _ _)
      have hx1 : '\n' ∉ x := fun hm => hnl (List.mem_cons_of_mem _ hm)
      rw [List.cons_append]
      unfold anyPlusK
      rw [if_neg hc]
      cases x with
      | nil =>
        rw [List.nil_append]
        cases anyPlusK k y with
        | some r => rfl
        | none => exact hk
      | cons d x1 =>
        have h1 := ih (List.cons_ne_nil _ _) hx1
        cases hr : anyPlusK k (d :: x1 ++ y) with
        | some r => rfl
        | none => rw [hr] at h1; exact absurd h1 (by simp)

/-- The search finds a match exactly when the pattern matches at some position. -/
theorem findSubmatch_isSome_iff (re : Regexp) (s : Str) :
    (findSubmatch re s).isSome = true ↔
      ∃ a t, s = a ++ t ∧ (matchHere re [] [] t).isSome = true := by
  induction s with
  | nil =>
    constructor
    · intro h
      exact ⟨[], [], rfl, h⟩
    · rintro ⟨a, t, hat, h⟩
      have ht : t = [] := (List.append_eq_nil.mp hat.symm).2
      rw [ht] at h
      exact h
  | cons c s ih =>
    unfold findSubmatch
    constructor
    · intro h
      cases hm : matchHere re [] [] (c :: s) with
      | some x => exact ⟨[], c :: s, rfl, by rw [hm]; rfl⟩
      | none =>
        rw [hm] at h
        obtain ⟨a, t, hat, ht⟩ := ih.mp h
        exact ⟨c :: a, t, by rw [hat]; rfl, ht⟩
    · rintro ⟨a, t, hat, ht⟩
      cases hm : matchHere re [] [] (c :: s) with
      | some x => rfl
      | none =>
        cases a with
        | nil =>
          rw [List.nil_append] at hat
          rw [← hat, hm] at ht
          exact absurd ht (by simp)
        | cons d a1 =>
          rw [List.cons_append, List.cons.injEq] at hat
          exact ih.mpr ⟨a1, t, hat.2, ht⟩

/-- The pattern `http.+s3-mirror-ap-northeast-1` matches exactly the strings that
hold `http`, then at least one byte and no newline, then
`s3-mirror-ap-northeast-1`. -/
theorem matchString_s3URLRe_iff (u : Str) :
    matchString s3URLRe u = true ↔
      ∃ a b c, u = a ++ "http".toList ++ b ++ "s3-mirror-ap-northeast-1".toList ++ c ∧
        b ≠ [] ∧ '\n' ∉ b := by
  have hlast : ∀ y : Str,
      (matchHere [Item.lit "s3-mirror-ap-northeast-1".toList] [] [] y).isSome = true ↔
        "s3-mirror-ap-northeast-1".toList <+: y := by
    intro y
    rw [← hasPrefix_iff]
    simp only [matchHere]
    cases hasPrefix y "s3-mirror-ap-northeast-1".toList <;> simp
  have hhere : ∀ t : Str, (matchHere s3URLRe [] [] t).isSome = true ↔
      ∃ b c, t = "http".toList ++ b ++ "s3-mirror-ap-northeast-1".toList ++ c ∧
        b ≠ [] ∧ '\n' ∉ b := by
    intro t
    constructor
    · intro h
      unfold s3URLRe at h
      cases hp : hasPrefix t "http".toList with
      | false =>
        rw [matchHere_lit_fail _ _ _ _ _ hp] at h
        exact absurd h (by simp)
      | true =>
        obtain ⟨t1, ht1⟩ := (hasPrefix_iff _ _).mp hp
        rw [← ht1, matchHere_lit] at h
        obtain ⟨x, y, hxy, hx, hnl, hk⟩ := (anyPlusK_isSome_iff _ t1).mp h
        obtain ⟨c, hc⟩ := (hlast y).mp hk
        refine ⟨x, c, ?_, hx, hnl⟩
        rw [← ht1, hxy, ← hc]
        simp only [List.append_assoc]
    · rintro ⟨b, c, ht, hb, hnl⟩
      unfold s3URLRe
      rw [ht, List.append_assoc, List.append_assoc, matchHere_lit]
      exact (anyPlusK_isSome_iff _ _).mpr
        ⟨b, "s3-mirror-ap-northeast-1".toList ++ c, rfl, hb, hnl,
          (hlast _).mpr (List.prefix_append _ _)⟩
  unfold matchString
  rw [findSubmatch_isSome_iff]
  constructor
  · rintro ⟨a, t, hat, ht⟩
    obtain ⟨b, c, htb, hb, hnl⟩ := (hhere t).mp ht
    refine ⟨a, b, c, ?_, hb, hnl⟩
    rw [hat, htb]
    simp only [List.append_assoc]
  · rintro ⟨a, b, c, hu, hb, hnl⟩
    refine ⟨a, "http".toList ++ b ++ "s3-mirror-ap-northeast-1".toList ++ c, ?_,
      (hhere _).mpr ⟨b, c, rfl, hb, hnl⟩⟩
    rw [hu]
    simp only [List.append_assoc]

/-! ## Facts about the path builder and the ignore list -/

theorem isIgnoreLoop_iff (name : Str) (ignores : List Str) :
    isIgnoreLoop name ignores = true ↔ ∃ ig ∈ ignores, hasPrefix name ig = true := by
  induction ignores with
  | nil => simp [isIgnoreLoop]
  | cons ig rest ih =>
    unfold isIgnoreLoop
    by_cases h : hasPrefix name ig = true
    · rw [if_pos h]
      exact ⟨fun _ => ⟨ig, List.mem_cons_self _ _, h⟩, fun _ => rfl⟩
    · rw [if_neg h, ih]
      constructor
      · rintro ⟨x, hx, hxp⟩
        exact ⟨x, List.mem_cons_of_mem _ hx, hxp⟩
      · rintro ⟨x, hx, hxp⟩
        rcases List.mem_cons.mp hx with h1 | h1
        · rw [h1] at hxp
          exact absurd hxp h
        · exact ⟨x, h1, hxp⟩

/-- The path does not depend on the field `BasePath`. -/
theorem makePath_basePath (conf : config) (b section_ url : Str) :
    makePath { conf with BasePath := b } section_ url = makePath conf section_ url := rfl

/-- What `strings.TrimLeft(s, "/")` removes is a run of slashes, and what it
leaves does not start with a slash. -/
theorem trimLeftSlash_spec (s : Str) :
    (∃ n, s = List.replicate n '/' ++ trimLeftSlash s) ∧
      hasPrefix (trimLeftSlash s) ['/'] = false := by
  induction s with
  | nil => exact ⟨⟨0, rfl⟩, rfl⟩
  | cons c t ih =>
    unfold trimLeftSlash
    by_cases hc : c = '/'
    · rw [if_pos hc]
      obtain ⟨⟨n, hn⟩, h2⟩ := ih
      refine ⟨⟨n + 1, ?_⟩, h2⟩
      rw [List.replicate_succ, List.cons_append, ← hn, hc]
    · rw [if_neg hc]
      refine ⟨⟨0, rfl⟩, ?_⟩
      show ((('/' : Char) == c) && List.isPrefixOf [] t) = false
      simp [Ne.symm hc]

theorem trimLeftSlash_idem (s : Str) : trimLeftSlash (trimLeftSlash s) = trimLeftSlash s := by
  induction s with
  | nil => rfl
  | cons c t ih =>
    by_cases hc : c = '/'
    · simp only [trimLeftSlash, if_pos hc]
      exact ih
    · simp only [trimLeftSlash, if_neg hc]

/-- The command `make3syncCmdLine` formats for the index the generator draws. -/
theorem make3syncCmdLine_eq (conf : config) (section_ : Str) (urls : List Str) (rnd i : Nat)
    (hi : i < urls.length) (hr : rnd % urls.length = i) :
    make3syncCmdLine conf section_ urls rnd =
      Outcome.done ("yums3sync --source '".toList ++ replaceURL conf (urls.get ⟨i, hi⟩)
        ++ "' --bucket '".toList ++ conf.Bucket ++ "' --prefix '".toList
        ++ makePath conf section_ (urls.get ⟨i, hi⟩) ++ "'".toList) := by
  unfold make3syncCmdLine
  have hlen : ¬ urls.length = 0 := by omega
  rw [if_neg hlen]
  simp only [hr, List.get?_eq_get hi]

/-! ## Further facts about `getPriorityURL` -/

theorem filter_filter_self {α : Type} (p : α → Bool) (l : List α) :
    (l.filter p).filter p = l.filter p := by
  rw [List.filter_filter]
  congr 1
  funext x
  cases p x <;> rfl

/-- A filter of a sub-list selected by another test is empty when the filter of
the whole list is. -/
theorem filter_filter_eq_nil {α : Type} (p q : α → Bool) (l : List α)
    (h : l.filter p = []) : (l.filter q).filter p = [] := by
  rw [List.filter_eq_nil_iff] at h ⊢
  intro x hx
  exact h x (List.mem_filter.mp hx).1

/-! ## Facts about a round of the loop -/

/-- The candidate list of a round whose `mirrorlist` is empty is the baseurl
alone; otherwise it is the prioritized list extracted from the fetched body. -/
theorem candidates_eq (conf : config) (fetch : Str → Option Str) (mirrorlist baseurl : Str)
    (urls : List Str)
    (hurls : (mirrorlist = [] ∧ urls = [baseurl]) ∨
      (mirrorlist ≠ [] ∧
        ∃ body, fetch (replaceURL conf mirrorlist) = some body ∧
          urls = getPriorityURL (getUrls body))) :
    (if mirrorlist.length > 0 then getMirroList conf fetch mirrorlist
      else Outcome.done [baseurl]) = Outcome.done urls := by
  rcases hurls with ⟨hm, hu⟩ | ⟨hm, body, hb, hu⟩
  · rw [hm, hu]
    rfl
  · rw [if_pos (List.length_pos.mpr hm)]
    unfold getMirroList
    simp only [hb, hu]

/-- A round on a section that is not ignored, with a candidate list that has a
first element. -/
theorem sectionRound_cons (conf : config) (fetch : Str → Option Str) (rnd : Nat)
    (name mirrorlist baseurl u0 : Str) (rest : List Str)
    (hign : isIgnore conf name = false)
    (hcand : (if mirrorlist.length > 0 then getMirroList conf fetch mirrorlist
      else Outcome.done [baseurl]) = Outcome.done (u0 :: rest)) :
    ∃ cmd, make3syncCmdLine conf name (u0 :: rest) rnd = Outcome.done cmd ∧
      sectionRound conf fetch rnd name mirrorlist baseurl =
        if u0.length > 0 then
          Outcome.done ⟨(makeBaseurl conf name u0).1,
            [IniCall.keyString name "mirrorlist".toList,
             IniCall.keyString name "baseurl".toList,
             IniCall.keySetValue name "baseurl".toList (makeBaseurl conf name u0).2,
             IniCall.deleteKey name "mirrorlist".toList],
            [cmd]⟩
        else
          Outcome.done ⟨conf,
            [IniCall.keyString name "mirrorlist".toList,
             IniCall.keyString name "baseurl".toList,
             IniCall.deleteKey name "mirrorlist".toList],
            []⟩ := by
  have hlt : rnd % (u0 :: rest).length < (u0 :: rest).length :=
    Nat.mod_lt _ (Nat.succ_pos _)
  have hcmd := make3syncCmdLine_eq conf name (u0 :: rest) rnd _ hlt rfl
  refine ⟨_, hcmd, ?_⟩
  unfold sectionRound
  rw [hign]
  simp only [Bool.false_eq_true, if_false]
  rw [hcand]
  simp only []
  rw [hcmd]

/-! ## Occurrences of a quoted token -/

theorem piecesOf_ne_nil (sep : Char) (s : Str) : piecesOf sep s ≠ [] := by
  cases s with
  | nil => simp [piecesOf]
  | cons c t =>
    unfold piecesOf
    split
    · simp
    · split <;> simp

theorem piecesOf_of_not_mem (sep : Char) (x : Str) (hx : sep ∉ x) : piecesOf sep x = [x] := by
  induction x with
  | nil => rfl
  | cons c t ih =>
    have hc : c ≠ sep := fun h => hx (h ▸ List.mem_cons_self _ _)
    have ht : sep ∉ t := fun h => hx (List.mem_cons_of_mem _ h)
    unfold piecesOf
    rw [if_neg hc, ih ht]

theorem piecesOf_append (sep : Char) (x y : Str) (hx : sep ∉ x) :
    piecesOf sep (x ++ sep :: y) = x :: piecesOf sep y := by
  induction x with
  | nil =>
    rw [List.nil_append]
    conv => lhs; unfold piecesOf
    rw [if_pos rfl]
  | cons c t ih =>
    have hc : c ≠ sep := fun h => hx (h ▸ List.mem_cons_self _ _)
    have ht : sep ∉ t := fun h => hx (List.mem_cons_of_mem _ h)
    rw [List.cons_append]
    conv => lhs; unfold piecesOf
    rw [if_neg hc, ih ht]

theorem hasPair_cons (u w p : Str) (ps : List Str) (h : hasPair u w ps = true) :
    hasPair u w (p :: ps) = true := by
  match ps, h with
  | q :: r :: s :: rest, h =>
    unfold hasPair
    rw [h, Bool.or_true]

theorem hasPair_cons_head (u w p : Str) (c : Char) (ps : List Str)
    (h : hasPair u w (p :: ps) = true) : hasPair u w ((c :: p) :: ps) = true := by
  match ps, h with
  | q :: r :: rest, h =>
    unfold hasPair at h ⊢
    rw [Bool.or_eq_true] at h ⊢
    rcases h with h | h
    · left
      rw [Bool.and_eq_true] at h ⊢
      refine ⟨?_, h.2⟩
      rw [List.isSuffixOf_iff_suffix] at h ⊢
      exact h.1.trans (List.suffix_cons c p)
    · exact Or.inr h

/-- An occurrence of `u`, the separator, `w`, the separator shows in the
pieces: a piece ends with `u` and the next piece is `w`. -/
theorem hasPair_of_contains (sep : Char) (u w s : Str) (hu : sep ∉ u) (hw : sep ∉ w)
    (h : contains s (u ++ sep :: (w ++ [sep])) = true) :
    hasPair u w (piecesOf sep s) = true := by
  rw [contains_iff] at h
  induction s with
  | nil =>
    have := List.infix_nil.mp h
    cases u <;> simp at this
  | cons c t ih =>
    rcases List.infix_cons_iff.mp h with h1 | h1
    · obtain ⟨b, hb⟩ := h1
      have e : c :: t = u ++ sep :: (w ++ sep :: b) := by
        rw [← hb]
        simp only [List.append_assoc, List.cons_append, List.nil_append]
      rw [e, piecesOf_append sep u _ hu, piecesOf_append sep w _ hw]
      cases hp : piecesOf sep b with
      | nil => exact absurd hp (piecesOf_ne_nil sep b)
      | cons r rest =>
        unfold hasPair
        simp
    · have ih1 := ih h1
      unfold piecesOf
      by_cases hc : c = sep
      · rw [if_pos hc]
        exact hasPair_cons u w [] _ ih1
      · rw [if_neg hc]
        cases hp : piecesOf sep t with
        | nil => exact absurd hp (piecesOf_ne_nil sep t)
        | cons p ps =>
          rw [hp] at ih1
          exact hasPair_cons_head u w p c ps ih1
theorem attrOk_spec (a : Str) (h : attrOk a = true) :
    a ≠ [] ∧ dq ∉ a ∧ '<' ∉ a ∧ '>' ∉ a := by
  unfold attrOk at h
  rw [Bool.and_eq_true, List.all_eq_true] at h
  obtain ⟨h1, h2⟩ := h
  refine ⟨?_, ?_, ?_, ?_⟩
  · intro h0
    rw [h0] at h1
    exact absurd h1 (by decide)
  · intro hm
    have := h2 _ hm
    simp at this
  · intro hm
    have := h2 _ hm
    simp at this
  · intro hm
    have := h2 _ hm
    simp at this

theorem wellFormed_url (l : UrlLine) (h : l.wellFormed = true) :
    (∃ v, v ≠ [] ∧ (l.url = "http://".toList ++ v ∨ l.url = "https://".toList ++ v)) ∧
      '<' ∉ l.url ∧ '>' ∉ l.url ∧ dq ∉ l.url ∧ '\n' ∉ l.url := by
  unfold UrlLine.wellFormed at h
  simp only [Bool.and_eq_true, Bool.or_eq_true, decide_eq_true_eq, List.all_eq_true] at h
  obtain ⟨⟨_, hshape⟩, hall⟩ := h
  refine ⟨?_, ?_, ?_, ?_, ?_⟩
  · rcases hshape with ⟨hp, hl⟩ | ⟨hp, hl⟩
    · obtain ⟨v, hv⟩ := (hasPrefix_iff _ _).mp hp
      refine ⟨v, ?_, Or.inl hv.symm⟩
      intro h0
      rw [← hv, h0] at hl
      exact absurd hl (by decide)
    · obtain ⟨v, hv⟩ := (hasPrefix_iff _ _).mp hp
      refine ⟨v, ?_, Or.inr hv.symm⟩
      intro h0
      rw [← hv, h0] at hl
      exact absurd hl (by decide)
  · intro hm
    have := hall _ hm
    simp at this
  · intro hm
    have := hall _ hm
    simp at this
  · intro hm
    have := hall _ hm
    simp at this
  · intro hm
    have := hall _ hm
    simp at this

theorem wellFormed_attrs (l : UrlLine) (h : l.wellFormed = true) :
    attrOk l.protocol = true ∧ attrOk l.kind = true ∧ attrOk l.location = true ∧
      attrOk l.preference = true := by
  unfold UrlLine.wellFormed at h
  simp only [Bool.and_eq_true] at h
  exact ⟨h.1.1.1.1.1, h.1.1.1.1.2, h.1.1.1.2, h.1.1.2⟩

/-- The line with its double quotes set apart. -/
theorem render_eq (l : UrlLine) :
    l.render = "<url protocol=".toList ++ dq :: (l.protocol ++ dq :: (" type=".toList ++ dq ::
      (l.kind ++ dq :: (" location=".toList ++ dq :: (l.location ++ dq ::
      (" preference=".toList ++ dq :: (l.preference ++ dq ::
      (">".toList ++ (l.url ++ "</url>".toList))))))))) := by
  unfold UrlLine.render
  simp only [List.append_assoc]
  rfl

theorem render_pieces (l : UrlLine) (h : l.wellFormed = true) :
    piecesOf dq l.render =
      ["<url protocol=".toList, l.protocol, " type=".toList, l.kind, " location=".toList,
        l.location, " preference=".toList, l.preference,
        ">".toList ++ (l.url ++ "</url>".toList)] := by
  obtain ⟨hp, hk, hl, hn⟩ := wellFormed_attrs l h
  obtain ⟨_, _, _, hu, _⟩ := wellFormed_url l h
  have hlast : dq ∉ ">".toList ++ (l.url ++ "</url>".toList) := by
    intro hm
    rcases List.mem_append.mp hm with h1 | h1
    · exact absurd h1 (by decide)
    · rcases List.mem_append.mp h1 with h2 | h2
      · exact hu h2
      · exact absurd h2 (by decide)
  rw [render_eq, piecesOf_append dq _ _ (by decide), piecesOf_append dq _ _ (attrOk_spec _ hp).2.1,
    piecesOf_append dq _ _ (by decide), piecesOf_append dq _ _ (attrOk_spec _ hk).2.1,
    piecesOf_append dq _ _ (by decide), piecesOf_append dq _ _ (attrOk_spec _ hl).2.1,
    piecesOf_append dq _ _ (by decide), piecesOf_append dq _ _ (attrOk_spec _ hn).2.1,
    piecesOf_of_not_mem dq _ hlast]

/-- A well-formed line holds `location="JP"` exactly when its location is `JP`. -/
theorem contains_location_JP_iff (l : UrlLine) (h : l.wellFormed = true) :
    contains l.render "location=\"JP\"".toList = true ↔ l.location = "JP".toList := by
  constructor
  · intro hc
    have e : "location=\"JP\"".toList = "location=".toList ++ dq :: ("JP".toList ++ [dq]) := by
      decide
    rw [e] at hc
    have hp := hasPair_of_contains dq _ _ _ (by decide) (by decide) hc
    rw [render_pieces l h] at hp
    simp only [hasPair, Bool.or_eq_true, Bool.and_eq_true, beq_iff_eq, Bool.or_false] at hp
    have n1 : ¬ "location=".toList.isSuffixOf "<url protocol=".toList = true := by decide
    have n2 : ¬ " type=".toList = "JP".toList := by decide
    have n3 : ¬ "location=".toList.isSuffixOf " type=".toList = true := by decide
    have n4 : ¬ " location=".toList = "JP".toList := by decide
    have n5 : ¬ " preference=".toList = "JP".toList := by decide
    have n6 : ¬ "location=".toList.isSuffixOf " preference=".toList = true := by decide
    rcases hp with hp | hp | hp | hp | hp | hp | hp
    · exact absurd hp.1 n1
    · exact absurd hp.2 n2
    · exact absurd hp.1 n3
    · exact absurd hp.2 n4
    · exact hp.2
    · exact absurd hp.2 n5
    · exact absurd hp.1 n6
  · intro hl
    rw [contains_iff, render_eq, hl]
    refine ⟨"<url protocol=".toList ++ dq :: (l.protocol ++ dq :: (" type=".toList ++ dq ::
      (l.kind ++ dq :: " ".toList))),
      " preference=".toList ++ dq :: (l.preference ++ dq ::
      (">".toList ++ (l.url ++ "</url>".toList))), ?_⟩
    simp only [List.append_assoc, List.cons_append]
    rfl
/-! ## The XML patterns on a metalink line -/

theorem xmlJPURLRe_eq :
    xmlJPURLRe = Item.lit "location=\"JP\"".toList :: Item.anyPlus :: urlTailItems := rfl

theorem xmlURLRe_eq :
    xmlURLRe = Item.lit "location=\"".toList :: Item.anyPlus :: Item.lit "\"".toList ::
      Item.anyPlus :: urlTailItems := rfl

/-- What `.+` followed by `k` returns, `k` returns at a shorter end of the input. -/
theorem anyPlusK_some_suffix {α : Type} (k : Str → Option α) (t : Str) (r : α)
    (h : anyPlusK k t = some r) : ∃ y, y <:+ t ∧ k y = some r := by
  induction t with
  | nil => exact absurd h (by simp [anyPlusK])
  | cons c t ih =>
    unfold anyPlusK at h
    by_cases hc : c = '\n'
    · rw [if_pos hc] at h
      exact absurd h (by simp)
    · rw [if_neg hc] at h
      cases hr : anyPlusK k t with
      | some x =>
        rw [hr] at h
        have hx : x = r := Option.some.inj h
        obtain ⟨y, hy, hk⟩ := ih (hx ▸ hr)
        exact ⟨y, hy.trans (List.suffix_cons c t), hk⟩
      | none =>
        rw [hr] at h
        exact ⟨t, List.suffix_cons c t, h⟩

/-- A match of a literal, `.+` and the rest: the rest matches at an end of the
input. -/
theorem matchHere_lit_anyPlus_suffix (p : Str) (rest : Regexp) (t r : Str)
    (h : matchHere (Item.lit p :: Item.anyPlus :: rest) [] [] t = some r) :
    ∃ y, y <:+ t ∧ matchHere rest [] [] y = some r := by
  cases hp : hasPrefix t p with
  | false =>
    rw [matchHere_lit_fail _ _ _ _ _ hp] at h
    exact absurd h (by simp)
  | true =>
    obtain ⟨t1, ht1⟩ := (hasPrefix_iff _ _).mp hp
    rw [← ht1, matchHere_lit] at h
    obtain ⟨y, hy, hk⟩ := anyPlusK_some_suffix _ t1 r h
    exact ⟨y, hy.trans (ht1 ▸ List.suffix_append p t1), hk⟩

theorem findSubmatch_some_suffix (re : Regexp) (s r : Str) (h : findSubmatch re s = some r) :
    ∃ t, t <:+ s ∧ matchHere re [] [] t = some r := by
  induction s with
  | nil => exact ⟨[], List.suffix_refl _, h⟩
  | cons c s ih =>
    unfold findSubmatch at h
    cases hm : matchHere re [] [] (c :: s) with
    | some x =>
      rw [hm] at h
      exact ⟨c :: s, List.suffix_refl _, hm.trans h⟩
    | none =>
      rw [hm] at h
      obtain ⟨t, ht, hr⟩ := ih h
      exact ⟨t, ht.trans (List.suffix_cons c s), hr⟩

/-- When the pattern matches somewhere and every match has the group `g`, the
leftmost match has the group `g`. -/
theorem findSubmatch_of_unique (re : Regexp) (s g : Str)
    (hex : ∃ a t, s = a ++ t ∧ (matchHere re [] [] t).isSome = true)
    (huniq : ∀ t, t <:+ s → ∀ r, matchHere re [] [] t = some r → r = g) :
    findSubmatch re s = some g := by
  have hsome := (findSubmatch_isSome_iff re s).mpr hex
  cases hf : findSubmatch re s with
  | none => rw [hf] at hsome; exact absurd hsome (by simp)
  | some r =>
    obtain ⟨t, ht, hr⟩ := findSubmatch_some_suffix re s r hf
    rw [huniq t ht r hr]

/-- A pattern that starts with a literal finds nothing in a string without the
literal. -/
theorem findSubmatch_none_of_not_contains (p : Str) (rest : Regexp) (s : Str)
    (h : contains s p = false) : findSubmatch (Item.lit p :: rest) s = none := by
  induction s with
  | nil =>
    unfold contains at h
    exact matchHere_lit_fail _ _ _ _ _ h
  | cons c t ih =>
    simp only [contains, Bool.or_eq_false_iff] at h
    unfold findSubmatch
    rw [matchHere_lit_fail _ _ _ _ _ h.1]
    exact ih h.2

/-- The tail items at `>u</url>`, the end of the line: the group is `u`. -/
theorem matchHere_urlTailItems (u v : Str)
    (hu : u = "http://".toList ++ v ∨ u = "https://".toList ++ v)
    (hv : v ≠ []) (hnl : '\n' ∉ v) :
    matchHere urlTailItems [] [] (">".toList ++ (u ++ "</url>".toList)) = some u := by
  unfold urlTailItems
  rw [matchHere_lit]
  exact matchHere_url_group [] [] u v hu hv hnl

/-- The tail items match at no end of `u</url>` when `u` is free of `>`. -/
theorem matchHere_urlTailItems_none (u y : Str) (hgt : '>' ∉ u)
    (hy : y <:+ u ++ "</url>".toList) : matchHere urlTailItems [] [] y = none := by
  rcases suffix_append_cases y _ _ hy with ⟨w, hw, hzw⟩ | h2
  · cases w with
    | nil => rw [hzw]; rfl
    | cons c w1 =>
      have hc : c ≠ '>' := by
        intro hc
        exact hgt (hc ▸ hw.subset (List.mem_cons_self _ _))
      rw [hzw]
      apply matchHere_lit_fail
      show (('>' == c) && List.isPrefixOf [] (w1 ++ "</url>".toList)) = false
      simp [Ne.symm hc]
  · have hall : ∀ y ∈ ("</url>".toList).tails, matchHere urlTailItems [] [] y = none := by
      decide
    exact hall y ((List.mem_tails y _).mpr h2)

/-- On a line `b>u</url>` with `b` and `u` free of `>`, the tail items match
only with the group `u`. -/
theorem matchHere_urlTailItems_unique (b u v : Str)
    (hu : u = "http://".toList ++ v ∨ u = "https://".toList ++ v)
    (hv : v ≠ []) (hnl : '\n' ∉ v) (hb : '>' ∉ b) (hgt : '>' ∉ u) (y r : Str)
    (hy : y <:+ b ++ (">".toList ++ (u ++ "</url>".toList)))
    (h : matchHere urlTailItems [] [] y = some r) : r = u := by
  have hat := matchHere_urlTailItems u v hu hv hnl
  rcases suffix_append_cases y _ _ hy with ⟨w, hw, hzw⟩ | h2
  · cases w with
    | nil =>
      rw [hzw, List.nil_append, hat] at h
      exact (Option.some.inj h).symm
    | cons c w1 =>
      have hc : c ≠ '>' := by
        intro hc
        exact hb (hc ▸ hw.subset (List.mem_cons_self _ _))
      have hfail : hasPrefix y ">".toList = false := by
        rw [hzw]
        show (('>' == c) && List.isPrefixOf [] (w1 ++ _)) = false
        simp [Ne.symm hc]
      unfold urlTailItems at h
      rw [matchHere_lit_fail _ _ _ _ _ hfail] at h
      exact absurd h (by simp)
  · rcases List.suffix_cons_iff.mp h2 with h3 | h3
    · have h4 : y = ">".toList ++ (u ++ "</url>".toList) := h3
      rw [h4, hat] at h
      exact (Option.some.inj h).symm
    · rw [matchHere_urlTailItems_none u y hgt h3] at h
      exact absurd h (by simp)
theorem matchHere_anyPlus (r : Regexp) (st cap s : Str) :
    matchHere (Item.anyPlus :: r) st cap s = anyPlusK (matchHere r st cap) s := rfl

/-- The line up to the `>` that ends the tag, and the rest. -/
theorem render_split (l : UrlLine) :
    l.render =
      ("<url protocol=\"".toList ++ l.protocol ++ "\" type=\"".toList ++ l.kind
        ++ "\" location=\"".toList ++ l.location ++ "\" preference=\"".toList ++ l.preference
        ++ "\"".toList) ++ (">".toList ++ (l.url ++ "</url>".toList)) := by
  unfold UrlLine.render
  simp only [List.append_assoc]
  rfl

theorem render_tag_no_gt (l : UrlLine) (h : l.wellFormed = true) :
    '>' ∉ "<url protocol=\"".toList ++ l.protocol ++ "\" type=\"".toList ++ l.kind
        ++ "\" location=\"".toList ++ l.location ++ "\" preference=\"".toList ++ l.preference
        ++ "\"".toList := by
  obtain ⟨hp, hk, hl, hn⟩ := wellFormed_attrs l h
  have h1 := (attrOk_spec _ hp).2.2.2
  have h2 := (attrOk_spec _ hk).2.2.2
  have h3 := (attrOk_spec _ hl).2.2.2
  have h4 := (attrOk_spec _ hn).2.2.2
  have c1 : '>' ∉ "<url protocol=\"".toList := by decide
  have c2 : '>' ∉ "\" type=\"".toList := by decide
  have c3 : '>' ∉ "\" location=\"".toList := by decide
  have c4 : '>' ∉ "\" preference=\"".toList := by decide
  have c5 : '>' ∉ "\"".toList := by decide
  intro hm
  simp only [List.mem_append] at hm
  rcases hm with ((((((((h | h) | h) | h) | h) | h) | h) | h) | h)
  · exact c1 h
  · exact h1 h
  · exact c2 h
  · exact h2 h
  · exact c3 h
  · exact h3 h
  · exact c4 h
  · exact h4 h
  · exact c5 h

/-- On a well-formed line every match of `xmlJPURLRe` has the URL as its group. -/
theorem matchHere_xmlJPURLRe_unique (l : UrlLine) (h : l.wellFormed = true) (t r : Str)
    (ht : t <:+ l.render) (hm : matchHere xmlJPURLRe [] [] t = some r) : r = l.url := by
  obtain ⟨⟨v, hv, hu⟩, _, hgt, _, hnl⟩ := wellFormed_url l h
  have hvnl : '\n' ∉ v := by
    intro hx
    rcases hu with hu | hu
    · exact hnl (by rw [hu]; exact List.mem_append_right _ hx)
    · exact hnl (by rw [hu]; exact List.mem_append_right _ hx)
  rw [xmlJPURLRe_eq] at hm
  obtain ⟨y, hy, hk⟩ := matchHere_lit_anyPlus_suffix _ _ t r hm
  have hy2 := hy.trans ht
  rw [render_split] at hy2
  exact matchHere_urlTailItems_unique _ l.url v hu hv hvnl (render_tag_no_gt l h) hgt y r hy2 hk

/-- On a well-formed line every match of `xmlURLRe` has the URL as its group. -/
theorem matchHere_xmlURLRe_unique (l : UrlLine) (h : l.wellFormed = true) (t r : Str)
    (ht : t <:+ l.render) (hm : matchHere xmlURLRe [] [] t = some r) : r = l.url := by
  obtain ⟨⟨v, hv, hu⟩, _, hgt, _, hnl⟩ := wellFormed_url l h
  have hvnl : '\n' ∉ v := by
    intro hx
    rcases hu with hu | hu
    · exact hnl (by rw [hu]; exact List.mem_append_right _ hx)
    · exact hnl (by rw [hu]; exact List.mem_append_right _ hx)
  rw [xmlURLRe_eq] at hm
  obtain ⟨y, hy, hk⟩ := matchHere_lit_anyPlus_suffix _ _ t r hm
  obtain ⟨y2, hy2, hk2⟩ := matchHere_lit_anyPlus_suffix _ _ y r hk
  have hy3 := (hy2.trans hy).trans ht
  rw [render_split] at hy3
  exact matchHere_urlTailItems_unique _ l.url v hu hv hvnl (render_tag_no_gt l h) hgt y2 r hy3 hk2

/-- The pattern `xmlURLRe` matches a well-formed line at its `location="`. -/
theorem matchHere_xmlURLRe_isSome (l : UrlLine) (h : l.wellFormed = true)
    (hline : '\n' ∉ l.render) :
    ∃ a t, l.render = a ++ t ∧ (matchHere xmlURLRe [] [] t).isSome = true := by
  obtain ⟨⟨v, hv, hu⟩, _, hgt, _, hnl⟩ := wellFormed_url l h
  obtain ⟨_, _, hl, _⟩ := wellFormed_attrs l h
  have hvnl : '\n' ∉ v := by
    intro hx
    rcases hu with hu | hu
    · exact hnl (by rw [hu]; exact List.mem_append_right _ hx)
    · exact hnl (by rw [hu]; exact List.mem_append_right _ hx)
  have hcc : '\n' ∉ l.location := by
    intro hx
    apply hline
    unfold UrlLine.render
    simp [hx]
  have hpn : '\n' ∉ " preference=\"".toList ++ l.preference ++ "\"".toList := by
    intro hx
    simp only [List.mem_append] at hx
    rcases hx with (hx | hx) | hx
    · exact absurd hx (by decide)
    · apply hline
      unfold UrlLine.render
      simp [hx]
    · exact absurd hx (by decide)
  refine ⟨"<url protocol=\"".toList ++ l.protocol ++ "\" type=\"".toList ++ l.kind
      ++ "\" ".toList,
    "location=\"".toList ++ (l.location ++ ("\"".toList ++
      ((" preference=\"".toList ++ l.preference ++ "\"".toList) ++
        (">".toList ++ (l.url ++ "</url>".toList))))), ?_, ?_⟩
  · unfold UrlLine.render
    simp only [List.append_assoc]
    rfl
  · rw [xmlURLRe_eq, matchHere_lit, matchHere_anyPlus]
    refine (anyPlusK_isSome_iff _ _).mpr ⟨l.location, _, rfl, (attrOk_spec _ hl).1, hcc, ?_⟩
    rw [matchHere_lit, matchHere_anyPlus]
    refine (anyPlusK_isSome_iff _ _).mpr
      ⟨" preference=\"".toList ++ l.preference ++ "\"".toList, _, rfl, ?_, hpn, ?_⟩
    · intro h0
      have := congrArg List.length h0
      simp at this
    · rw [matchHere_urlTailItems l.url v hu hv hvnl]
      rfl

/-- The pattern `xmlJPURLRe` matches a well-formed line with the location `JP`. -/
theorem matchHere_xmlJPURLRe_isSome (l : UrlLine) (h : l.wellFormed = true)
    (hline : '\n' ∉ l.render) (hjp : l.location = "JP".toList) :
    ∃ a t, l.render = a ++ t ∧ (matchHere xmlJPURLRe [] [] t).isSome = true := by
  obtain ⟨⟨v, hv, hu⟩, _, hgt, _, hnl⟩ := wellFormed_url l h
  have hvnl : '\n' ∉ v := by
    intro hx
    rcases hu with hu | hu
    · exact hnl (by rw [hu]; exact List.mem_append_right _ hx)
    · exact hnl (by rw [hu]; exact List.mem_append_right _ hx)
  have hpn : '\n' ∉ " preference=\"".toList ++ l.preference ++ "\"".toList := by
    intro hx
    simp only [List.mem_append] at hx
    rcases hx with (hx | hx) | hx
    · exact absurd hx (by decide)
    · apply hline
      unfold UrlLine.render
      simp [hx]
    · exact absurd hx (by decide)
  have hne : " preference=\"".toList ++ l.preference ++ "\"".toList ≠ [] := by
    intro h0
    have := congrArg List.length h0
    simp at this
  refine ⟨"<url protocol=\"".toList ++ l.protocol ++ "\" type=\"".toList ++ l.kind
      ++ "\" ".toList,
    "location=\"JP\"".toList ++ ((" preference=\"".toList ++ l.preference ++ "\"".toList) ++
      (">".toList ++ (l.url ++ "</url>".toList))), ?_, ?_⟩
  · unfold UrlLine.render
    rw [hjp]
    simp only [List.append_assoc]
    rfl
  · rw [matchHere_xmlJPURLRe _ l.url v hne hpn hu hv hvnl hgt]
    rfl

/-- What `grep` with `xmlJPURLRe` takes from a well-formed line. -/
theorem findSubmatch_xmlJPURLRe_line (l : UrlLine) (h : l.wellFormed = true)
    (hline : '\n' ∉ l.render) :
    findSubmatch xmlJPURLRe l.render
      = if l.location = "JP".toList then some l.url else none := by
  by_cases hjp : l.location = "JP".toList
  · rw [if_pos hjp]
    exact findSubmatch_of_unique _ _ _ (matchHere_xmlJPURLRe_isSome l h hline hjp)
      (fun t ht r hm => matchHere_xmlJPURLRe_unique l h t r ht hm)
  · rw [if_neg hjp, xmlJPURLRe_eq]
    apply findSubmatch_none_of_not_contains
    rw [Bool.eq_false_iff]
    intro hc
    exact hjp ((contains_location_JP_iff l h).mp hc)

/-- What `grep` with `xmlURLRe` takes from a well-formed line. -/
theorem findSubmatch_xmlURLRe_line (l : UrlLine) (h : l.wellFormed = true)
    (hline : '\n' ∉ l.render) : findSubmatch xmlURLRe l.render = some l.url :=
  findSubmatch_of_unique _ _ _ (matchHere_xmlURLRe_isSome l h hline)
    (fun t ht r hm => matchHere_xmlURLRe_unique l h t r ht hm)
theorem filterMap_render (re : Regexp) (g : UrlLine → Option Str) (ls : List UrlLine)
    (h : ∀ l ∈ ls, findSubmatch re l.render = g l) :
    (ls.map UrlLine.render).filterMap (findSubmatch re) = ls.filterMap g := by
  induction ls with
  | nil => rfl
  | cons l ls ih =>
    rw [List.map_cons, List.filterMap_cons, List.filterMap_cons, h l (List.mem_cons_self _ _),
      ih (fun m hm => h m (List.mem_cons_of_mem _ hm))]

theorem filterMap_ite_eq {α β : Type} (p : α → Bool) (f : α → β) (ls : List α) :
    ls.filterMap (fun l => if p l = true then some (f l) else none) = (ls.filter p).map f := by
  induction ls with
  | nil => rfl
  | cons l ls ih =>
    rw [List.filterMap_cons, List.filter_cons]
    cases hp : p l with
    | true => simp only [if_true, List.map_cons, ih]
    | false => simp only [Bool.false_eq_true, if_false, ih]

theorem filterMap_some_eq {α β : Type} (f : α → β) (ls : List α) :
    ls.filterMap (fun l => some (f l)) = ls.map f := by
  induction ls with
  | nil => rfl
  | cons l ls ih => rw [List.filterMap_cons, List.map_cons, ih]

/-- A string without `location="` has no `location="JP"`. -/
theorem not_contains_location_JP (s : Str) (h : contains s "location=\"".toList = false) :
    contains s "location=\"JP\"".toList = false := by
  rw [Bool.eq_false_iff] at h ⊢
  intro hc
  apply h
  rw [contains_iff] at hc ⊢
  have hp : "location=\"".toList <+: "location=\"JP\"".toList := by decide
  exact hp.isInfix.trans hc

/-- The URL extraction on a metalink document: a header line without
`location="` and well-formed `<url>` lines. -/
theorem getUrls_of_lines (body header : Str) (ls : List UrlLine)
    (hdoc : splitLines body = header :: ls.map UrlLine.render)
    (hxml : contains header "<?xml version=".toList = true)
    (hloc : contains header "location=\"".toList = false)
    (hwf : ∀ l ∈ ls, l.wellFormed = true) :
    getUrls body =
      if ls.any (fun l => decide (l.location = "JP".toList)) = true
      then (ls.filter (fun l => decide (l.location = "JP".toList))).map UrlLine.url
      else ls.map UrlLine.url := by
  have hnl : ∀ l ∈ ls, '\n' ∉ l.render := by
    intro l hl
    apply splitLines_no_newline body
    rw [hdoc]
    exact List.mem_cons_of_mem _ (List.mem_map_of_mem _ hl)
  have hmarker : searchString (header :: ls.map UrlLine.render) "<?xml version=".toList = true :=
    searchString_eq_true _ _ header (List.mem_cons_self _ _) hxml
  have hheadJP := not_contains_location_JP header hloc
  unfold getUrls
  simp only []
  rw [hdoc, hmarker, if_pos rfl]
  by_cases hany : ls.any (fun l => decide (l.location = "JP".toList)) = true
  · rw [if_pos hany]
    obtain ⟨l, hl, hjp⟩ := List.any_eq_true.mp hany
    have hjp1 : l.location = "JP".toList := of_decide_eq_true hjp
    have hs : searchString (header :: ls.map UrlLine.render) "location=\"JP\"".toList = true :=
      searchString_eq_true _ _ l.render (List.mem_cons_of_mem _ (List.mem_map_of_mem _ hl))
        ((contains_location_JP_iff l (hwf l hl)).mpr hjp1)
    rw [hs, if_pos rfl, grep_eq_filterMap, List.filterMap_cons]
    have hhead : findSubmatch xmlJPURLRe header = none := by
      rw [xmlJPURLRe_eq]
      exact findSubmatch_none_of_not_contains _ _ _ hheadJP
    rw [hhead]
    simp only []
    rw [filterMap_render xmlJPURLRe
      (fun l => if decide (l.location = "JP".toList) = true then some l.url else none) ls ?_]
    · exact filterMap_ite_eq _ _ ls
    · intro m hm
      rw [findSubmatch_xmlJPURLRe_line m (hwf m hm) (hnl m hm)]
      show (if m.location = "JP".toList then some m.url else none)
        = (if decide (m.location = "JP".toList) = true then some m.url else none)
      by_cases hm1 : m.location = "JP".toList
      · rw [if_pos hm1, if_pos (decide_eq_true hm1)]
      · have hd : ¬ decide (m.location = "JP".toList) = true := by
          rw [decide_eq_false hm1]
          exact Bool.false_ne_true
        rw [if_neg hm1, if_neg hd]
  · rw [if_neg hany]
    have hs : searchString (header :: ls.map UrlLine.render) "location=\"JP\"".toList = false := by
      apply searchString_eq_false
      intro line hline
      rcases List.mem_cons.mp hline with h1 | h1
      · rw [h1]
        exact hheadJP
      · obtain ⟨m, hm, hmr⟩ := List.mem_map.mp h1
        rw [← hmr, Bool.eq_false_iff]
        intro hc
        apply hany
        rw [List.any_eq_true]
        exact ⟨m, hm, decide_eq_true ((contains_location_JP_iff m (hwf m hm)).mp hc)⟩
    rw [hs, if_neg Bool.false_ne_true, grep_eq_filterMap, List.filterMap_cons]
    have hhead : findSubmatch xmlURLRe header = none := by
      rw [xmlURLRe_eq]
      exact findSubmatch_none_of_not_contains _ _ _ hloc
    rw [hhead]
    simp only []
    rw [filterMap_render xmlURLRe (fun l => some l.url) ls
      (fun m hm => findSubmatch_xmlURLRe_line m (hwf m hm) (hnl m hm))]
    exact filterMap_some_eq _ ls

/-! ## The end of a joined path -/

theorem intercalate_cons_cons (a b : Str) (l : List Str) :
    ['/'].intercalate (a :: b :: l) = a ++ '/' :: ['/'].intercalate (b :: l) := by
  simp [List.intercalate]

theorem intercalate_singleton (sep a : Str) : sep.intercalate [a] = a := by
  simp [List.intercalate]

theorem splitSlash_ne_nil (s : Str) : splitSlash s ≠ [] := by
  cases s with
  | nil => simp [splitSlash]
  | cons c t =>
    unfold splitSlash
    split
    · simp
    · split <;> simp

theorem splitSlash_of_not_mem (x : Str) (hx : '/' ∉ x) : splitSlash x = [x] := by
  induction x with
  | nil => rfl
  | cons c t ih =>
    have hc : c ≠ '/' := fun h => hx (h ▸ List.mem_cons_self _ _)
    have ht : '/' ∉ t := fun h => hx (List.mem_cons_of_mem _ h)
    unfold splitSlash
    rw [if_neg hc, ih ht]

/-- The components of `x/y` are those of `x` followed by those of `y`. -/
theorem splitSlash_append (x y : Str) :
    splitSlash (x ++ '/' :: y) = splitSlash x ++ splitSlash y := by
  induction x with
  | nil =>
    rw [List.nil_append]
    conv => lhs; unfold splitSlash
    rw [if_pos rfl]
    rfl
  | cons c t ih =>
    rw [List.cons_append]
    conv => lhs; unfold splitSlash
    conv => rhs; arg 1; unfold splitSlash
    by_cases hc : c = '/'
    · rw [if_pos hc, if_pos hc, ih]
      rfl
    · rw [if_neg hc, if_neg hc, ih]
      cases hs : splitSlash t with
      | nil => exact absurd hs (splitSlash_ne_nil t)
      | cons l ls => rfl

theorem plainComp_spec (c : Str) (h : plainComp c = true) :
    c ≠ [] ∧ '/' ∉ c ∧ c ≠ ['.'] ∧ c ≠ ['.', '.'] := by
  unfold plainComp at h
  simp only [Bool.and_eq_true, Bool.not_eq_true', bne_iff_ne, ne_eq] at h
  obtain ⟨⟨⟨h1, h2⟩, h3⟩, h4⟩ := h
  refine ⟨?_, ?_, h3, h4⟩
  · intro h0
    rw [h0] at h1
    exact absurd h1 (by decide)
  · intro hm
    have : c.contains '/' = true := by simp [hm]
    rw [h2] at this
    exact absurd this (by decide)

/-- The components of a joined list that ends with plain components end with
these components. -/
theorem splitSlash_intercalate (es cs : List Str) (hcs : cs ≠ [])
    (hplain : ∀ c ∈ cs, plainComp c = true) :
    ∃ S, splitSlash (['/'].intercalate (es ++ cs)) = S ++ cs := by
  have hbase : ∀ cs : List Str, cs ≠ [] → (∀ c ∈ cs, plainComp c = true) →
      splitSlash (['/'].intercalate cs) = cs := by
    intro cs
    induction cs with
    | nil => intro h; exact absurd rfl h
    | cons c cs ih =>
      intro _ hp
      have hc := (plainComp_spec c (hp c (List.mem_cons_self _ _))).2.1
      cases cs with
      | nil => rw [intercalate_singleton, splitSlash_of_not_mem c hc]
      | cons d ds =>
        rw [intercalate_cons_cons, splitSlash_append, splitSlash_of_not_mem c hc,
          ih (List.cons_ne_nil _ _) (fun x hx => hp x (List.mem_cons_of_mem _ hx))]
        rfl
  induction es with
  | nil => exact ⟨[], by rw [List.nil_append, hbase cs hcs hplain]⟩
  | cons e es ih =>
    obtain ⟨S, hS⟩ := ih
    cases hrest : es ++ cs with
    | nil =>
      have := List.append_eq_nil.mp hrest
      exact absurd this.2 hcs
    | cons d ds =>
      refine ⟨splitSlash e ++ S, ?_⟩
      rw [List.cons_append, hrest, intercalate_cons_cons, splitSlash_append, ← hrest, hS,
        List.append_assoc]

theorem cleanStep_plain (rooted : Bool) (stack : List Str) (c : Str) (h : plainComp c = true) :
    cleanStep rooted stack c = c :: stack := by
  obtain ⟨h1, _, h3, h4⟩ := plainComp_spec c h
  unfold cleanStep
  rw [if_neg (by rintro (h | h); exact h1 h; exact h3 h), if_neg h4]

theorem foldl_cleanStep_plain (rooted : Bool) (cs : List Str)
    (hplain : ∀ c ∈ cs, plainComp c = true) (stack : List Str) :
    cs.foldl (cleanStep rooted) stack = cs.reverse ++ stack := by
  induction cs generalizing stack with
  | nil => rfl
  | cons c cs ih =>
    rw [List.foldl_cons, cleanStep_plain rooted stack c (hplain c (List.mem_cons_self _ _)),
      ih (fun x hx => hplain x (List.mem_cons_of_mem _ hx)), List.reverse_cons,
      List.append_assoc]
    rfl

theorem suffix_intercalate (rs cs : List Str) (hcs : cs ≠ []) :
    ['/'].intercalate cs <:+ ['/'].intercalate (rs ++ cs) := by
  induction rs with
  | nil => exact List.suffix_refl _
  | cons r rs ih =>
    cases hrest : rs ++ cs with
    | nil =>
      have := List.append_eq_nil.mp hrest
      exact absurd this.2 hcs
    | cons d ds =>
      rw [List.cons_append, hrest, intercalate_cons_cons, ← hrest]
      exact ih.trans ((List.suffix_cons _ _).trans (List.suffix_append _ _))

theorem intercalate_ne_nil (cs : List Str) (c : Str) (hc : c ∈ cs) (hne : c ≠ []) :
    ['/'].intercalate cs ≠ [] := by
  induction cs with
  | nil => exact absurd hc (List.not_mem_nil _)
  | cons d ds ih =>
    cases ds with
    | nil =>
      rw [intercalate_singleton]
      rcases List.mem_cons.mp hc with h | h
      · rw [← h]; exact hne
      · exact absurd h (List.not_mem_nil _)
    | cons e es =>
      rw [intercalate_cons_cons]
      intro h0
      exact absurd (List.append_eq_nil.mp h0).2 (List.cons_ne_nil _ _)

/-- A cleaned path whose components end with plain components ends with these
components, joined. -/
theorem filepathClean_suffix (path : Str) (S cs : List Str) (hcs : cs ≠ [])
    (hplain : ∀ c ∈ cs, plainComp c = true) (hsplit : splitSlash path = S ++ cs) :
    ['/'].intercalate cs <:+ filepathClean path := by
  obtain ⟨c, hc⟩ := List.exists_mem_of_ne_nil cs hcs
  have hne := intercalate_ne_nil cs c hc (plainComp_spec c (hplain c hc)).1
  unfold filepathClean
  simp only []
  rw [hsplit, List.foldl_append, foldl_cleanStep_plain _ cs hplain, List.reverse_append,
    List.reverse_reverse]
  have hsuf := suffix_intercalate
    (List.foldl (cleanStep (hasPrefix path ['/'])) [] S).reverse cs hcs
  have hout : ['/'].intercalate cs <:+
      (if hasPrefix path ['/'] = true then ['/'] else []) ++
        ['/'].intercalate ((List.foldl (cleanStep (hasPrefix path ['/'])) [] S).reverse ++ cs) :=
    hsuf.trans (List.suffix_append _ _)
  rw [if_neg]
  · exact hout
  · intro h0
    rw [h0] at hout
    exact hne (List.suffix_nil.mp hout)

/-- The path `filepath.Join` builds from elements that end with plain components
ends with these components, joined. -/
theorem filepathJoin_suffix (es cs : List Str) (hcs : cs ≠ [])
    (hplain : ∀ c ∈ cs, plainComp c = true) :
    ['/'].intercalate cs <:+ filepathJoin (es ++ cs) := by
  induction es with
  | nil =>
    cases cs with
    | nil => exact absurd rfl hcs
    | cons c cs1 =>
      rw [List.nil_append]
      unfold filepathJoin
      rw [if_neg (plainComp_spec c (hplain c (List.mem_cons_self _ _))).1]
      obtain ⟨S, hS⟩ := splitSlash_intercalate [] (c :: cs1) hcs hplain
      exact filepathClean_suffix _ S (c :: cs1) hcs hplain hS
  | cons e es ih =>
    rw [List.cons_append]
    unfold filepathJoin
    by_cases he : e = []
    · rw [if_pos he]
      exact ih
    · rw [if_neg he]
      obtain ⟨S, hS⟩ := splitSlash_intercalate (e :: es) cs hcs hplain
      exact filepathClean_suffix _ S cs hcs hplain hS
/-! ## Text that a replacement leaves in place -/

/-- At a copy of `q` that no occurrence of `old` can meet, the scan copies `q`. -/
theorem strReplace_keep_here (old new q b : Str)
    (hq : ∀ q1, q1 <:+ q → q1 ≠ [] → ¬ q1 <+: old ∧ ¬ old <+: q1) :
    strReplace (q ++ b) old new = q ++ strReplace b old new := by
  induction q with
  | nil => rfl
  | cons c q2 ih =>
    have hno : hasPrefix (c :: (q2 ++ b)) old = false := by
      rw [Bool.eq_false_iff]
      intro hp
      have h1 := (hasPrefix_iff _ _).mp hp
      have h2 := hq (c :: q2) (List.suffix_refl _) (List.cons_ne_nil _ _)
      rcases List.prefix_or_prefix_of_prefix h1 (List.prefix_append (c :: q2) b) with h | h
      · exact h2.2 h
      · exact h2.1 h
    rw [List.cons_append, strReplace_cons_nomatch old new c (q2 ++ b) hno,
      ih (fun q1 hs hne => hq q1 (hs.trans (List.suffix_cons c q2)) hne)]
    rfl

/-- A copy of `q` that no occurrence of `old` can meet is still there after the
replacement, followed by the replaced rest. -/
theorem strReplace_keep (old new q : Str) (hold : old ≠ [])
    (hqo : apart q old = true) (hoq : apart old q = true) :
    ∀ (n : Nat) (a b : Str), a.length ≤ n →
      ∃ a1, strReplace (a ++ (q ++ b)) old new = a1 ++ (q ++ strReplace b old new) := by
  intro n
  induction n with
  | zero =>
    intro a b ha
    have hnil : a = [] := List.length_eq_zero.mp (Nat.le_zero.mp ha)
    rw [hnil]
    exact ⟨[], strReplace_keep_here old new q b (apart_spec q old hqo)⟩
  | succ n ih =>
    intro a b ha
    cases a with
    | nil => exact ⟨[], strReplace_keep_here old new q b (apart_spec q old hqo)⟩
    | cons c a2 =>
      cases hm : hasPrefix (c :: (a2 ++ (q ++ b))) old with
      | false =>
        have hlen : a2.length ≤ n := by
          simp only [List.length_cons] at ha
          omega
        obtain ⟨a1, h1⟩ := ih a2 b hlen
        refine ⟨c :: a1, ?_⟩
        rw [List.cons_append, strReplace_cons_nomatch old new c (a2 ++ (q ++ b)) hm, h1]
        rfl
      | true =>
        have hpre := (hasPrefix_iff _ _).mp hm
        by_cases hle : old.length ≤ (c :: a2).length
        · have hpos : 0 < old.length := List.length_pos.mpr hold
          have hlen : ((c :: a2).drop old.length).length ≤ n := by
            simp only [List.length_drop, List.length_cons] at ha ⊢
            omega
          obtain ⟨a1, h1⟩ := ih ((c :: a2).drop old.length) b hlen
          refine ⟨new ++ a1, ?_⟩
          rw [List.cons_append, strReplace_cons_match old new hold c (a2 ++ (q ++ b)) hm,
            ← List.cons_append, List.drop_append_of_le_length hle, h1, List.append_assoc]
        · exfalso
          have hlt : (c :: a2).length ≤ old.length := by omega
          have hao : (c :: a2) <+: old :=
            List.prefix_of_prefix_length_le (List.prefix_append _ _) hpre hlt
          obtain ⟨o1, ho1⟩ := hao
          have hne : o1 ≠ [] := by
            intro h0
            rw [h0, List.append_nil] at ho1
            rw [← ho1] at hle
            exact hle (Nat.le_refl _)
          rw [← ho1] at hpre
          have ho1q : o1 <+: q ++ b := (List.prefix_append_right_inj _).mp hpre
          have hsuf : o1 <:+ old := ho1 ▸ List.suffix_append _ _
          have hno := apart_spec old q hoq o1 hsuf hne
          rcases List.prefix_or_prefix_of_prefix ho1q (List.prefix_append q b) with h | h
          · exact hno.1 h
          · exact hno.2 h

/-- An end of the string that no occurrence of `old` can meet is an end of the
replaced string. -/
theorem suffix_strReplace (s old new t : Str) (hold : old ≠ [])
    (hto : apart t old = true) (hot : apart old t = true) (h : t <:+ s) :
    t <:+ strReplace s old new := by
  obtain ⟨a, ha⟩ := h
  obtain ⟨a1, h1⟩ := strReplace_keep old new t hold hto hot a.length a [] (Nat.le_refl _)
  rw [List.append_nil] at h1
  rw [← ha, h1, strReplace_nil old new hold, List.append_nil]
  exact List.suffix_append _ _

/-- An occurrence of `q` that no occurrence of `old` can meet is still there
after the replacement. -/
theorem contains_strReplace (s old new q : Str) (hold : old ≠ [])
    (hqo : apart q old = true) (hoq : apart old q = true) (h : contains s q = true) :
    contains (strReplace s old new) q = true := by
  rw [contains_iff] at h ⊢
  obtain ⟨a, b, hab⟩ := h
  obtain ⟨a1, h1⟩ := strReplace_keep old new q hold hqo hoq a.length a b (Nat.le_refl _)
  rw [← hab, List.append_assoc, h1]
  exact ⟨a1, strReplace b old new, by rw [List.append_assoc]⟩

/-- The template resolver keeps an end of the string that none of its four
tokens can meet. -/
theorem suffix_replaceURL (conf : config) (s t : Str)
    (h1 : apart t "$basearch".toList = true ∧ apart "$basearch".toList t = true)
    (h2 : apart t "$releasever".toList = true ∧ apart "$releasever".toList t = true)
    (h3 : apart t "$infra".toList = true ∧ apart "$infra".toList t = true)
    (h4 : apart t "/repodata/repomd.xml".toList = true ∧
      apart "/repodata/repomd.xml".toList t = true)
    (h : t <:+ s) : t <:+ replaceURL conf s := by
  unfold replaceURL
  exact suffix_strReplace _ _ _ t (by decide) h4.1 h4.2
    (suffix_strReplace _ _ _ t (by decide) h3.1 h3.2
      (suffix_strReplace _ _ _ t (by decide) h2.1 h2.2
        (suffix_strReplace _ _ _ t (by decide) h1.1 h1.2 h)))

/-- The template resolver keeps an occurrence of `x86_64`. -/
theorem contains_replaceURL_arch (conf : config) (s : Str)
    (h : contains s "x86_64".toList = true) :
    contains (replaceURL conf s) "x86_64".toList = true := by
  unfold replaceURL
  exact contains_strReplace _ _ _ _ (by decide) (by decide) (by decide)
    (contains_strReplace _ _ _ _ (by decide) (by decide) (by decide)
      (contains_strReplace _ _ _ _ (by decide) (by decide) (by decide)
        (contains_strReplace _ _ _ _ (by decide) (by decide) (by decide) h)))

/-- With Arch `x86_64` and ReleaseVer `7` the path of `makePath` ends with
`7/x86_64` when the URL contains `x86_64`, and with `7` when it does not. -/
theorem makePath_suffix (conf : config) (section_ url : Str)
    (hA : conf.Arch = "x86_64".toList) (hR : conf.ReleaseVer = "7".toList) :
    (contains url "x86_64".toList = true → "7/x86_64".toList <:+ makePath conf section_ url) ∧
      (contains url "x86_64".toList = false → "7".toList <:+ makePath conf section_ url) := by
  constructor
  · intro hc
    unfold makePath
    rw [hA, hc, if_pos rfl, hR]
    have hj : "7/x86_64".toList <:+
        filepathJoin [conf.Prefix, section_, "7".toList, "x86_64".toList] :=
      filepathJoin_suffix [conf.Prefix, section_] ["7".toList, "x86_64".toList] (by decide)
        (by decide)
    exact suffix_replaceURL conf _ _ (by decide) (by decide) (by decide) (by decide) hj
  · intro hc
    unfold makePath
    rw [hA, hc, if_neg Bool.false_ne_true, hR]
    have hj : "7".toList <:+ filepathJoin [conf.Prefix, section_, "7".toList] :=
      filepathJoin_suffix [conf.Prefix, section_] ["7".toList] (by decide) (by decide)
    exact suffix_replaceURL conf _ _ (by decide) (by decide) (by decide) (by decide) hj

/-! ## The claims -/

/-- C1: when at least one URL of the list matches the storage-mirror pattern
`http.+s3-mirror-ap-northeast-1`, `getPriorityURL` returns exactly the URLs
matching the pattern, in their original order and multiplicity; a URL matches
when it holds `http`, then at least one byte and no newline, then
`s3-mirror-ap-northeast-1`. -/
theorem getPriorityURL_storage_mirror (urls : List Str)
    (h : ∃ u ∈ urls, matchString s3URLRe u = true) :
    getPriorityURL urls = urls.filter (matchString s3URLRe) ∧
      ∀ u : Str, matchString s3URLRe u = true ↔
        ∃ a b c, u = a ++ "http".toList ++ b ++ "s3-mirror-ap-northeast-1".toList ++ c ∧
          b ≠ [] ∧ '\n' ∉ b := by
  obtain ⟨u, hu, hm⟩ := h
  rw [getPriorityURL_eq, if_pos (filter_ne_nil_of_mem _ urls u hu hm)]
  exact ⟨rfl, matchString_s3URLRe_iff⟩

theorem getPriorityURL_storage_mirror_witness :
    (∃ u ∈ ["http://a.jp/".toList, "http://x/s3-mirror-ap-northeast-1/".toList],
        matchString s3URLRe u = true) ∧
      getPriorityURL ["http://a.jp/".toList, "http://x/s3-mirror-ap-northeast-1/".toList]
        = ["http://a.jp/".toList, "http://x/s3-mirror-ap-northeast-1/".toList].filter
            (matchString s3URLRe) :=
  ⟨by decide, (getPriorityURL_storage_mirror _ (by decide)).1⟩

/-- C2: when no URL of the list matches the storage-mirror pattern and at least
one contains `.jp/`, `getPriorityURL` returns exactly the URLs containing `.jp/`,
in their original order. -/
theorem getPriorityURL_jp (urls : List Str)
    (hs3 : ∀ u ∈ urls, matchString s3URLRe u = false)
    (hjp : ∃ u ∈ urls, contains u ".jp/".toList = true) :
    getPriorityURL urls = urls.filter (fun u => contains u ".jp/".toList) := by
  obtain ⟨u, hu, hm⟩ := hjp
  rw [getPriorityURL_eq, if_neg (not_not.mpr (filter_eq_nil_of_none _ urls hs3)),
    if_pos (filter_ne_nil_of_mem _ urls u hu hm)]

theorem getPriorityURL_jp_witness :
    (∀ u ∈ ["http://a.jp/x".toList, "http://b.us/".toList], matchString s3URLRe u = false) ∧
      (∃ u ∈ ["http://a.jp/x".toList, "http://b.us/".toList], contains u ".jp/".toList = true) ∧
      getPriorityURL ["http://a.jp/x".toList, "http://b.us/".toList]
        = ["http://a.jp/x".toList, "http://b.us/".toList].filter
            (fun u => contains u ".jp/".toList) :=
  ⟨by decide, by decide, getPriorityURL_jp _ (by decide) (by decide)⟩

/-- C3: when no URL matches the storage-mirror pattern, none contains `.jp/` and
at least one starts with an entry of `priorityMirrorList`, `getPriorityURL`
returns exactly the URLs that start with some entry of the list, in original
order, every input occurrence once. -/
theorem getPriorityURL_priority_mirror (urls : List Str)
    (hs3 : ∀ u ∈ urls, matchString s3URLRe u = false)
    (hjp : ∀ u ∈ urls, contains u ".jp/".toList = false)
    (hpm : ∃ u ∈ urls, ∃ p ∈ priorityMirrorList, hasPrefix u p = true) :
    getPriorityURL urls
      = urls.filter (fun u => priorityMirrorList.any (fun p => hasPrefix u p)) := by
  obtain ⟨u, hu, p, hp, hm⟩ := hpm
  have hany : startsWithPriorityMirror u = true := by
    unfold startsWithPriorityMirror
    rw [List.any_eq_true]
    exact ⟨p, hp, hm⟩
  rw [getPriorityURL_eq, if_neg (not_not.mpr (filter_eq_nil_of_none _ urls hs3)),
    if_neg (not_not.mpr (filter_eq_nil_of_none _ urls hjp)),
    if_pos (filter_ne_nil_of_mem _ urls u hu hany)]
  rfl

theorem getPriorityURL_priority_mirror_witness :
    (∃ u ∈ ["http://b.us/".toList, "http://mirror.bebout.net/remi/x".toList,
          "http://mirror.bebout.net/remi/x".toList],
        ∃ p ∈ priorityMirrorList, hasPrefix u p = true) ∧
      getPriorityURL ["http://b.us/".toList, "http://mirror.bebout.net/remi/x".toList,
          "http://mirror.bebout.net/remi/x".toList]
        = ["http://b.us/".toList, "http://mirror.bebout.net/remi/x".toList,
            "http://mirror.bebout.net/remi/x".toList].filter
            (fun u => priorityMirrorList.any (fun p => hasPrefix u p)) ∧
      getPriorityURL ["http://b.us/".toList, "http://mirror.bebout.net/remi/x".toList,
          "http://mirror.bebout.net/remi/x".toList]
        = ["http://mirror.bebout.net/remi/x".toList, "http://mirror.bebout.net/remi/x".toList] :=
  ⟨by decide, getPriorityURL_priority_mirror _ (by decide) (by decide) (by decide), by decide⟩

/-- C4: when no URL matches the storage-mirror pattern, none contains `.jp/` and
none starts with an entry of `priorityMirrorList`, `getPriorityURL` returns the
input list unchanged; the empty list is such a list. -/
theorem getPriorityURL_identity (urls : List Str)
    (hs3 : ∀ u ∈ urls, matchString s3URLRe u = false)
    (hjp : ∀ u ∈ urls, contains u ".jp/".toList = false)
    (hpm : ∀ u ∈ urls, ∀ p ∈ priorityMirrorList, hasPrefix u p = false) :
    getPriorityURL urls = urls := by
  have hany : ∀ u ∈ urls, startsWithPriorityMirror u = false := by
    intro u hu
    unfold startsWithPriorityMirror
    rw [List.any_eq_false]
    intro p hp
    simp [hpm u hu p hp]
  rw [getPriorityURL_eq, if_neg (not_not.mpr (filter_eq_nil_of_none _ urls hs3)),
    if_neg (not_not.mpr (filter_eq_nil_of_none _ urls hjp)),
    if_neg (not_not.mpr (filter_eq_nil_of_none _ urls hany))]

theorem getPriorityURL_identity_witness :
    (∀ u ∈ ["http://b.us/".toList, "http://c.de/x".toList],
        ∀ p ∈ priorityMirrorList, hasPrefix u p = false) ∧
      getPriorityURL ["http://b.us/".toList, "http://c.de/x".toList]
        = ["http://b.us/".toList, "http://c.de/x".toList] ∧
      getPriorityURL [] = [] :=
  ⟨by decide, getPriorityURL_identity _ (by decide) (by decide) (by decide),
   getPriorityURL_identity [] (by decide) (by decide) (by decide)⟩

/-- C5 (counterexample): for the document of the claim `getUrls` returns the
empty list: the line `<url location="JP">http://a</url>` is a line of it, and
`http://a` is not in the result. -/
theorem getUrls_xml_example_counterexample :
    getUrls ("<?xml version=\"1.0\"?>\n<url location=\"JP\">http://a</url>\n"
        ++ "<url location=\"US\">http://b</url>").toList = [] ∧
      "<url location=\"JP\">http://a</url>".toList ∈
        splitLines ("<?xml version=\"1.0\"?>\n<url location=\"JP\">http://a</url>\n"
          ++ "<url location=\"US\">http://b</url>").toList ∧
      "http://a".toList ∉
        getUrls ("<?xml version=\"1.0\"?>\n<url location=\"JP\">http://a</url>\n"
          ++ "<url location=\"US\">http://b</url>").toList := by
  decide

/-- C5 (amended): when the two `<url>` lines carry a further attribute after
`location`, `<url location="JP" preference="100">http://a</url>` and
`<url location="US" preference="100">http://b</url>`, `getUrls` returns exactly
`["http://a"]`; and in every XML document, every line of the form
`<url location="JP"a>u</url>` with `a` non-empty and `u` free of `>`, `u` being
`http://` or `https://` followed by at least one byte, contributes `u` to the
result. -/
theorem getUrls_xml_jp_lines :
    getUrls ("<?xml version=\"1.0\"?>\n<url location=\"JP\" preference=\"100\">http://a</url>\n"
        ++ "<url location=\"US\" preference=\"100\">http://b</url>").toList
        = ["http://a".toList] ∧
      ∀ body a u v : Str,
        (∃ l ∈ splitLines body, contains l "<?xml version=".toList = true) →
        a ≠ [] → (u = "http://".toList ++ v ∨ u = "https://".toList ++ v) → v ≠ [] → '>' ∉ u →
        "<url location=\"JP\"".toList ++ a ++ ">".toList ++ u ++ "</url>".toList
          ∈ splitLines body →
        u ∈ getUrls body := by
  refine ⟨by decide, ?_⟩
  intro body a u v hxml ha hu hv hgt hline
  obtain ⟨l, hl, hlx⟩ := hxml
  have hnl := splitLines_no_newline body _ hline
  have hanl : '\n' ∉ a := fun h => hnl (by simp [h])
  have hunl : '\n' ∉ u := fun h => hnl (by simp [h])
  have hvnl : '\n' ∉ v := by
    intro h
    rcases hu with hu | hu
    · exact hunl (by rw [hu]; exact List.mem_append_right _ h)
    · exact hunl (by rw [hu]; exact List.mem_append_right _ h)
  have hjp : contains ("<url location=\"JP\"".toList ++ a ++ ">".toList ++ u ++ "</url>".toList)
      "location=\"JP\"".toList = true := by
    rw [contains_iff]
    refine ⟨"<url ".toList, a ++ ">".toList ++ u ++ "</url>".toList, ?_⟩
    simp only [List.append_assoc]
    rfl
  unfold getUrls
  simp only []
  rw [searchString_eq_true _ _ l hl hlx, if_pos rfl, searchString_eq_true _ _ _ hline hjp,
    if_pos rfl]
  exact mem_grep _ _ _ _ hline (findSubmatch_xmlJPURLRe a u v ha hanl hu hv hvnl hgt)

theorem getUrls_xml_jp_lines_witness :
    "<url location=\"JP\"".toList ++ " preference=\"100\"".toList ++ ">".toList
          ++ "https://ftp.riken.jp/x".toList ++ "</url>".toList
        ∈ splitLines ("<?xml version=\"1.0\"?>\n"
          ++ "<url location=\"JP\" preference=\"100\">https://ftp.riken.jp/x</url>").toList ∧
      "https://ftp.riken.jp/x".toList
        ∈ getUrls ("<?xml version=\"1.0\"?>\n"
          ++ "<url location=\"JP\" preference=\"100\">https://ftp.riken.jp/x</url>").toList :=
  ⟨by decide,
   getUrls_xml_jp_lines.2 _ " preference=\"100\"".toList "https://ftp.riken.jp/x".toList
     "ftp.riken.jp/x".toList (by decide) (by decide) (Or.inr (by decide)) (by decide) (by decide)
     (by decide)⟩

/-- C6: for every body in which no line contains `<?xml version=`, `getUrls`
returns exactly the lines of the body that do not start with `#`, in document
order, blank lines and duplicates kept; the lines are the pieces of the body
between its newline bytes.  For `# comment\nhttp://x\n\nhttp://y` it returns
`["http://x", "", "http://y"]`. -/
theorem getUrls_plain_list :
    (∀ body : Str, (∀ l ∈ splitLines body, contains l "<?xml version=".toList = false) →
      getUrls body = (splitLines body).filter (fun l => !hasPrefix l "#".toList) ∧
        ['\n'].intercalate (splitLines body) = body ∧ ∀ l ∈ splitLines body, '\n' ∉ l) ∧
      getUrls "# comment\nhttp://x\n\nhttp://y".toList
        = ["http://x".toList, "".toList, "http://y".toList] := by
  refine ⟨fun body h => ⟨?_, intercalate_splitLines body, splitLines_no_newline body⟩, by decide⟩
  unfold getUrls
  simp only []
  rw [searchString_eq_false _ _ h, if_neg Bool.false_ne_true, plain_loop_eq, List.nil_append]

theorem getUrls_plain_list_witness :
    (∀ l ∈ splitLines "#a\n\nhttp://x\nhttp://x".toList,
        contains l "<?xml version=".toList = false) ∧
      getUrls "#a\n\nhttp://x\nhttp://x".toList
        = (splitLines "#a\n\nhttp://x\nhttp://x".toList).filter
            (fun l => !hasPrefix l "#".toList) :=
  ⟨by decide, (getUrls_plain_list.1 "#a\n\nhttp://x\nhttp://x".toList (by decide)).1⟩

/-- C7: with Prefix `/mirror-repo/`, ReleaseVer `7`, Arch `x86_64` and section
`remi`, `makePath` returns `/mirror-repo/remi/7/x86_64` for a source URL that
contains `x86_64` and `/mirror-repo/remi/7` for every other one. -/
theorem makePath_remi (conf : config) (url : Str)
    (hP : conf.Prefix = "/mirror-repo/".toList) (hR : conf.ReleaseVer = "7".toList)
    (hA : conf.Arch = "x86_64".toList) :
    makePath conf "remi".toList url =
      if contains url "x86_64".toList then "/mirror-repo/remi/7/x86_64".toList
      else "/mirror-repo/remi/7".toList := by
  unfold makePath replaceURL
  simp only [hP, hR, hA]
  cases contains url "x86_64".toList
  · decide
  · decide

theorem makePath_remi_witness :
    makePath defaultConfig "remi".toList "http://rpms.remirepo.net/enterprise/7/remi/x86_64/".toList
      = "/mirror-repo/remi/7/x86_64".toList ∧
    makePath defaultConfig "remi".toList "http://rpms.remirepo.net/enterprise/7/remi/".toList
      = "/mirror-repo/remi/7".toList :=
  ⟨(makePath_remi defaultConfig _ rfl rfl rfl).trans (by decide),
   (makePath_remi defaultConfig _ rfl rfl rfl).trans (by decide)⟩

/-- C8 (counterexample): `$base/repodata/repomd.xmlarch` contains none of the
placeholder tokens, its resolved form is `$basearch`, and resolving that again
gives `x86_64`. -/
theorem replaceURL_twice_counterexample :
    contains "$base/repodata/repomd.xmlarch".toList "$basearch".toList = false ∧
      contains "$base/repodata/repomd.xmlarch".toList "$releasever".toList = false ∧
      contains "$base/repodata/repomd.xmlarch".toList "$infra".toList = false ∧
      replaceURL defaultConfig "$base/repodata/repomd.xmlarch".toList = "$basearch".toList ∧
      replaceURL defaultConfig (replaceURL defaultConfig "$base/repodata/repomd.xmlarch".toList)
        = "x86_64".toList ∧
      replaceURL defaultConfig (replaceURL defaultConfig "$base/repodata/repomd.xmlarch".toList)
        ≠ replaceURL defaultConfig "$base/repodata/repomd.xmlarch".toList := by
  decide

/-- C8 (amended): for every configuration and every URL whose resolved form
`replaceURL conf url` contains none of `$basearch`, `$releasever`, `$infra` and
no `/repodata/repomd.xml`, resolving twice equals resolving once. -/
theorem replaceURL_idempotent_of_resolved (conf : config) (url : Str)
    (h1 : contains (replaceURL conf url) "$basearch".toList = false)
    (h2 : contains (replaceURL conf url) "$releasever".toList = false)
    (h3 : contains (replaceURL conf url) "$infra".toList = false)
    (h4 : contains (replaceURL conf url) "/repodata/repomd.xml".toList = false) :
    replaceURL conf (replaceURL conf url) = replaceURL conf url := by
  generalize replaceURL conf url = r at h1 h2 h3 h4
  unfold replaceURL
  simp only []
  rw [strReplace_of_not_contains r _ _ h1, strReplace_of_not_contains r _ _ h2,
    strReplace_of_not_contains r _ _ h3, strReplace_of_not_contains r _ _ h4]

theorem replaceURL_idempotent_of_resolved_witness :
    replaceURL defaultConfig "http://m/$releasever/$basearch/repodata/repomd.xml".toList
        = "http://m/7/x86_64".toList ∧
      replaceURL defaultConfig
          (replaceURL defaultConfig "http://m/$releasever/$basearch/repodata/repomd.xml".toList)
        = replaceURL defaultConfig "http://m/$releasever/$basearch/repodata/repomd.xml".toList :=
  ⟨by decide,
   replaceURL_idempotent_of_resolved defaultConfig _ (by decide) (by decide) (by decide)
     (by decide)⟩

/-- C9 (counterexample): with the default configuration the resolved form of
`$base$infraarch` is `$basearch`, and the resolved form of
`/repodata/repo/repodata/repomd.xmlmd.xml` is `/repodata/repomd.xml`. -/
theorem replaceURL_leaves_token_counterexample :
    replaceURL defaultConfig "$base$infraarch".toList = "$basearch".toList ∧
      contains (replaceURL defaultConfig "$base$infraarch".toList) "$basearch".toList = true ∧
      replaceURL defaultConfig "/repodata/repo/repodata/repomd.xmlmd.xml".toList
        = "/repodata/repomd.xml".toList ∧
      contains (replaceURL defaultConfig "/repodata/repo/repodata/repomd.xmlmd.xml".toList)
        "/repodata/repomd.xml".toList = true := by
  decide

/-- C9 (amended): with Arch `x86_64` and ReleaseVer `7`, for every input URL the
string after the two substitution passes contains neither `$basearch` nor
`$releasever`, and the output is that string with `$infra` and then
`/repodata/repomd.xml` deleted; for every input URL that contains no `$infra`
and no `/repodata/repomd.xml`, the output contains no occurrence of `$basearch`,
`$releasever`, `$infra` or `/repodata/repomd.xml`. -/
theorem replaceURL_default_tokens (conf : config) (url : Str)
    (hA : conf.Arch = "x86_64".toList) (hR : conf.ReleaseVer = "7".toList) :
    (contains (strReplace (strReplace url "$basearch".toList conf.Arch)
          "$releasever".toList conf.ReleaseVer) "$basearch".toList = false ∧
      contains (strReplace (strReplace url "$basearch".toList conf.Arch)
          "$releasever".toList conf.ReleaseVer) "$releasever".toList = false ∧
      replaceURL conf url =
        strReplace (strReplace (strReplace (strReplace url "$basearch".toList conf.Arch)
          "$releasever".toList conf.ReleaseVer) "$infra".toList []) "/repodata/repomd.xml".toList [])
    ∧ (contains url "$infra".toList = false →
        contains url "/repodata/repomd.xml".toList = false →
        contains (replaceURL conf url) "$basearch".toList = false ∧
          contains (replaceURL conf url) "$releasever".toList = false ∧
          contains (replaceURL conf url) "$infra".toList = false ∧
          contains (replaceURL conf url) "/repodata/repomd.xml".toList = false) := by
  rw [hA, hR]
  have a1 : contains (strReplace url "$basearch".toList "x86_64".toList) "$basearch".toList
      = false :=
    not_contains_strReplace_self url _ _ (by decide) (by decide) (by decide)
  have a2 : contains (strReplace (strReplace url "$basearch".toList "x86_64".toList)
      "$releasever".toList "7".toList) "$basearch".toList = false :=
    not_contains_strReplace_other _ _ _ _ (by decide) (by decide) (by decide) (by decide) a1
  have r2 : contains (strReplace (strReplace url "$basearch".toList "x86_64".toList)
      "$releasever".toList "7".toList) "$releasever".toList = false :=
    not_contains_strReplace_self _ _ _ (by decide) (by decide) (by decide)
  have hdef : replaceURL conf url =
      strReplace (strReplace (strReplace (strReplace url "$basearch".toList "x86_64".toList)
        "$releasever".toList "7".toList) "$infra".toList []) "/repodata/repomd.xml".toList [] := by
    unfold replaceURL
    rw [hA, hR]
  refine ⟨⟨a2, r2, hdef⟩, ?_⟩
  intro hi hx
  have i1 : contains (strReplace url "$basearch".toList "x86_64".toList) "$infra".toList
      = false :=
    not_contains_strReplace_other _ _ _ _ (by decide) (by decide) (by decide) (by decide) hi
  have i2 : contains (strReplace (strReplace url "$basearch".toList "x86_64".toList)
      "$releasever".toList "7".toList) "$infra".toList = false :=
    not_contains_strReplace_other _ _ _ _ (by decide) (by decide) (by decide) (by decide) i1
  have x1 : contains (strReplace url "$basearch".toList "x86_64".toList)
      "/repodata/repomd.xml".toList = false :=
    not_contains_strReplace_other _ _ _ _ (by decide) (by decide) (by decide) (by decide) hx
  have x2 : contains (strReplace (strReplace url "$basearch".toList "x86_64".toList)
      "$releasever".toList "7".toList) "/repodata/repomd.xml".toList = false :=
    not_contains_strReplace_other _ _ _ _ (by decide) (by decide) (by decide) (by decide) x1
  rw [hdef, strReplace_of_not_contains _ _ _ i2, strReplace_of_not_contains _ _ _ x2]
  exact ⟨a2, r2, i2, x2⟩

theorem replaceURL_default_tokens_witness :
    contains "http://m/$releasever/$basearch/os".toList "$infra".toList = false ∧
      contains "http://m/$releasever/$basearch/os".toList "/repodata/repomd.xml".toList = false ∧
      replaceURL defaultConfig "http://m/$releasever/$basearch/os".toList
        = "http://m/7/x86_64/os".toList ∧
      contains (replaceURL defaultConfig "http://m/$releasever/$basearch/os".toList)
        "$basearch".toList = false :=
  ⟨by decide, by decide, by decide,
   ((replaceURL_default_tokens defaultConfig "http://m/$releasever/$basearch/os".toList rfl rfl).2
      (by decide) (by decide)).1⟩

/-- C10 (failing input): the section `epel` with a `mirrorlist` key, fetched
body `# comment`: no candidate URL is extracted, `rand.Intn(0)` panics in
`make3syncCmdLine`, and the `mirrorlist` key is never deleted.  The same happens
for an XML body without a matching `<url>` line. -/
theorem processSection_no_candidate_panics :
    getPriorityURL (getUrls "# comment".toList) = [] ∧
      (∀ rnd : Nat,
        processSection defaultConfig (fun _ => some "# comment".toList) rnd
          ⟨"epel".toList, [("mirrorlist".toList, "http://m/list".toList)]⟩ = Outcome.panicked) ∧
      getPriorityURL (getUrls "<?xml version=\"1.0\"?>\n<metalink>".toList) = [] ∧
      (∀ rnd : Nat,
        processSection defaultConfig (fun _ => some "<?xml version=\"1.0\"?>\n<metalink>".toList)
          rnd ⟨"epel".toList, [("mirrorlist".toList, "http://m/list".toList)]⟩
          = Outcome.panicked) := by
  refine ⟨by decide, fun rnd => ?_, by decide, fun rnd => ?_⟩
  · rfl
  · rfl

/-- C11: `isIgnore` returns true exactly for the names that start with an entry
of `conf.Ignores`, and the loop of `readWriteRepoFile` skips a section with such
a name: whatever its keys are and whatever the mirror service would answer, the
section is left as it is (baseurl not rewritten, mirrorlist not deleted),
nothing is fetched and nothing is printed.  `amzn-extras` is skipped when `amzn`
is in the ignore list. -/
theorem processSection_ignored :
    (∀ (conf : config) (name : Str),
        isIgnore conf name = true ↔ ∃ ig ∈ conf.Ignores, hasPrefix name ig = true) ∧
      (∀ (conf : config) (fetch : Str → Option Str) (rnd : Nat) (sec : Section),
        (∃ ig ∈ conf.Ignores, hasPrefix sec.name ig = true) →
        processSection conf fetch rnd sec = Outcome.done ⟨conf, sec, []⟩) ∧
      (∀ (conf : config) (fetch : Str → Option Str) (rnd : Nat) (keys : List (Str × Str)),
        "amzn".toList ∈ conf.Ignores →
        processSection conf fetch rnd ⟨"amzn-extras".toList, keys⟩
          = Outcome.done ⟨conf, ⟨"amzn-extras".toList, keys⟩, []⟩) := by
  have h1 : ∀ (conf : config) (name : Str),
      isIgnore conf name = true ↔ ∃ ig ∈ conf.Ignores, hasPrefix name ig = true :=
    fun conf name => isIgnoreLoop_iff name conf.Ignores
  have h2 : ∀ (conf : config) (fetch : Str → Option Str) (rnd : Nat) (sec : Section),
      (∃ ig ∈ conf.Ignores, hasPrefix sec.name ig = true) →
      processSection conf fetch rnd sec = Outcome.done ⟨conf, sec, []⟩ := by
    intro conf fetch rnd sec h
    unfold processSection
    rw [if_pos ((h1 conf sec.name).mpr h)]
  refine ⟨h1, h2, ?_⟩
  intro conf fetch rnd keys h
  have hp : hasPrefix "amzn-extras".toList "amzn".toList = true := by decide
  exact h2 conf fetch rnd ⟨"amzn-extras".toList, keys⟩ ⟨"amzn".toList, h, hp⟩

theorem processSection_ignored_witness :
    processSection defaultConfig (fun _ => none) 0
        ⟨"amzn-extras".toList, [("mirrorlist".toList, "http://m/$basearch".toList)]⟩
      = Outcome.done ⟨defaultConfig,
          ⟨"amzn-extras".toList, [("mirrorlist".toList, "http://m/$basearch".toList)]⟩, []⟩ :=
  processSection_ignored.2.1 defaultConfig (fun _ => none) 0 _ ⟨"amzn".toList, by decide, by decide⟩

/-- C12: for a section that is not ignored, with `mirrorlist` and `baseurl` the
strings the two reads of the section return, `urls = [baseurl]` when
`mirrorlist` is empty and `urls = getPriorityURL (getUrls body)` for the fetched
body otherwise: when `urls[0]` is non-empty the round sets the key `baseurl` of
the section to `makeBaseurl conf name urls[0]` and prints exactly one sync
command, the one of `make3syncCmdLine`, and the value it sets is the same for
every draw of the generator; when `urls[0]` is empty the round sets no value and
prints nothing.  Its other calls on the library are the two reads and, last, the
deletion of the key `mirrorlist`. -/
theorem sectionRound_rewrite (conf : config) (fetch : Str → Option Str) (rnd : Nat)
    (name mirrorlist baseurl : Str) (urls : List Str)
    (hign : isIgnore conf name = false)
    (hurls : (mirrorlist = [] ∧ urls = [baseurl]) ∨
      (mirrorlist ≠ [] ∧
        ∃ body, fetch (replaceURL conf mirrorlist) = some body ∧
          urls = getPriorityURL (getUrls body))) :
    (∀ u0 rest, urls = u0 :: rest → u0 ≠ [] →
      ∃ cmd, make3syncCmdLine conf name urls rnd = Outcome.done cmd ∧
        sectionRound conf fetch rnd name mirrorlist baseurl =
          Outcome.done ⟨(makeBaseurl conf name u0).1,
            [IniCall.keyString name "mirrorlist".toList,
             IniCall.keyString name "baseurl".toList,
             IniCall.keySetValue name "baseurl".toList (makeBaseurl conf name u0).2,
             IniCall.deleteKey name "mirrorlist".toList],
            [cmd]⟩ ∧
        ∀ rnd2, ∃ cmd2, make3syncCmdLine conf name urls rnd2 = Outcome.done cmd2 ∧
          sectionRound conf fetch rnd2 name mirrorlist baseurl =
            Outcome.done ⟨(makeBaseurl conf name u0).1,
              [IniCall.keyString name "mirrorlist".toList,
               IniCall.keyString name "baseurl".toList,
               IniCall.keySetValue name "baseurl".toList (makeBaseurl conf name u0).2,
               IniCall.deleteKey name "mirrorlist".toList],
              [cmd2]⟩) ∧
    (∀ rest, urls = [] :: rest →
      sectionRound conf fetch rnd name mirrorlist baseurl =
        Outcome.done ⟨conf,
          [IniCall.keyString name "mirrorlist".toList,
           IniCall.keyString name "baseurl".toList,
           IniCall.deleteKey name "mirrorlist".toList],
          []⟩) := by
  have hcand := candidates_eq conf fetch mirrorlist baseurl urls hurls
  constructor
  · intro u0 rest hu hu0
    have hpos : u0.length > 0 := List.length_pos.mpr hu0
    rw [hu] at hcand ⊢
    obtain ⟨cmd, hcmd, hround⟩ :=
      sectionRound_cons conf fetch rnd name mirrorlist baseurl u0 rest hign hcand
    rw [if_pos hpos] at hround
    refine ⟨cmd, hcmd, hround, ?_⟩
    intro rnd2
    obtain ⟨cmd2, hcmd2, hround2⟩ :=
      sectionRound_cons conf fetch rnd2 name mirrorlist baseurl u0 rest hign hcand
    rw [if_pos hpos] at hround2
    exact ⟨cmd2, hcmd2, hround2⟩
  · intro rest hu
    rw [hu] at hcand
    obtain ⟨cmd, _, hround⟩ :=
      sectionRound_cons conf fetch rnd name mirrorlist baseurl [] rest hign hcand
    rw [if_neg (by decide)] at hround
    exact hround

theorem sectionRound_rewrite_witness :
    isIgnore defaultConfig "pgdg.sub".toList = false ∧
      sectionRound defaultConfig (fun _ => none) 7 "pgdg.sub".toList []
          "https://d/linux/7/x86_64/stable".toList
        = Outcome.done ⟨defaultConfig,
            [IniCall.keyString "pgdg.sub".toList "mirrorlist".toList,
             IniCall.keyString "pgdg.sub".toList "baseurl".toList,
             IniCall.keySetValue "pgdg.sub".toList "baseurl".toList
               "https://hoge.cloudfront.net//mirror-repo/pgdg.sub/7/x86_64".toList,
             IniCall.deleteKey "pgdg.sub".toList "mirrorlist".toList],
            [("yums3sync --source 'https://d/linux/7/x86_64/stable' --bucket 'hoge' "
              ++ "--prefix '/mirror-repo/pgdg.sub/7/x86_64'").toList]⟩ ∧
      ∃ cmd, make3syncCmdLine defaultConfig "pgdg.sub".toList
          ["https://d/linux/7/x86_64/stable".toList] 7 = Outcome.done cmd ∧
        sectionRound defaultConfig (fun _ => none) 7 "pgdg.sub".toList []
            "https://d/linux/7/x86_64/stable".toList
          = Outcome.done ⟨(makeBaseurl defaultConfig "pgdg.sub".toList
                "https://d/linux/7/x86_64/stable".toList).1,
              [IniCall.keyString "pgdg.sub".toList "mirrorlist".toList,
               IniCall.keyString "pgdg.sub".toList "baseurl".toList,
               IniCall.keySetValue "pgdg.sub".toList "baseurl".toList
                 (makeBaseurl defaultConfig "pgdg.sub".toList
                   "https://d/linux/7/x86_64/stable".toList).2,
               IniCall.deleteKey "pgdg.sub".toList "mirrorlist".toList],
              [cmd]⟩ :=
  ⟨by decide, by decide,
   by
    obtain ⟨cmd, h1, h2, _⟩ :=
      (sectionRound_rewrite defaultConfig (fun _ => none) 7 "pgdg.sub".toList []
        "https://d/linux/7/x86_64/stable".toList ["https://d/linux/7/x86_64/stable".toList]
        (by decide) (Or.inl ⟨rfl, rfl⟩)).1
        "https://d/linux/7/x86_64/stable".toList [] rfl (by decide)
    exact ⟨cmd, h1, h2⟩⟩

/-- C13: `makeBaseurl` returns `T ++ "/" ++ makePath conf section url`, where `T`
is `conf.BasePath` without its leading slashes; afterwards `conf.BasePath` is
`T` and every other field is as before, and a second call with the same
arguments returns the same string. -/
theorem makeBaseurl_spec (conf : config) (section_ url : Str) :
    (makeBaseurl conf section_ url).2
        = trimLeftSlash conf.BasePath ++ "/".toList ++ makePath conf section_ url ∧
      (makeBaseurl conf section_ url).1 = { conf with BasePath := trimLeftSlash conf.BasePath } ∧
      (∃ n, conf.BasePath = List.replicate n '/' ++ trimLeftSlash conf.BasePath) ∧
      hasPrefix (trimLeftSlash conf.BasePath) "/".toList = false ∧
      makeBaseurl (makeBaseurl conf section_ url).1 section_ url = makeBaseurl conf section_ url := by
  refine ⟨rfl, rfl, (trimLeftSlash_spec conf.BasePath).1, (trimLeftSlash_spec conf.BasePath).2, ?_⟩
  unfold makeBaseurl
  simp only [trimLeftSlash_idem]

/-- C14: for a candidate list and a chosen index `i` within it (the draw `rnd`
of the generator gives `rnd % len(urls) = i`), `make3syncCmdLine` returns
`yums3sync --source '` ++ replaceURL(conf, urls[i]) ++ `' --bucket '` ++
conf.Bucket ++ `' --prefix '` ++ makePath(conf, section, urls[i]) ++ `'`. -/
theorem make3syncCmdLine_spec (conf : config) (section_ : Str) (urls : List Str) (rnd i : Nat)
    (hi : i < urls.length) (hr : rnd % urls.length = i) :
    make3syncCmdLine conf section_ urls rnd =
      Outcome.done ("yums3sync --source '".toList ++ replaceURL conf (urls.get ⟨i, hi⟩)
        ++ "' --bucket '".toList ++ conf.Bucket ++ "' --prefix '".toList
        ++ makePath conf section_ (urls.get ⟨i, hi⟩) ++ "'".toList) :=
  make3syncCmdLine_eq conf section_ urls rnd i hi hr

theorem make3syncCmdLine_spec_witness :
    make3syncCmdLine defaultConfig "remi".toList
        ["http://a/$basearch/".toList, "http://b/x86_64/repodata/repomd.xml".toList] 3
      = Outcome.done
          "yums3sync --source 'http://b/x86_64' --bucket 'hoge' --prefix '/mirror-repo/remi/7/x86_64'".toList :=
  (make3syncCmdLine_spec defaultConfig "remi".toList
    ["http://a/$basearch/".toList, "http://b/x86_64/repodata/repomd.xml".toList] 3 1
    (by decide) (by decide)).trans (by decide)

/-- C15: there are a configuration, a section, a prioritized candidate list with
two entries and a draw of the generator for which the sync command takes its
source from `urls[1]` while the baseurl is built from `urls[0]`, and the
`--prefix` path of the command differs from the path in the rewritten baseurl. -/
theorem sync_command_and_baseurl_diverge :
    ∃ (conf : config) (section_ : Str) (urls : List Str) (rnd : Nat) (u0 u1 : Str),
      1 < urls.length ∧ getPriorityURL urls = urls ∧ urls.get? 0 = some u0 ∧
        urls.get? (rnd % urls.length) = some u1 ∧
        make3syncCmdLine conf section_ urls rnd =
          Outcome.done ("yums3sync --source '".toList ++ replaceURL conf u1
            ++ "' --bucket '".toList ++ conf.Bucket ++ "' --prefix '".toList
            ++ makePath conf section_ u1 ++ "'".toList) ∧
        (makeBaseurl conf section_ u0).2
          = trimLeftSlash conf.BasePath ++ "/".toList ++ makePath conf section_ u0 ∧
        u1 ≠ u0 ∧ replaceURL conf u1 ≠ replaceURL conf u0 ∧
        makePath conf section_ u1 ≠ makePath conf section_ u0 ∧
        processSection conf (fun _ => some "http://a/x86_64/\nhttp://b/".toList) rnd
            ⟨section_, [("mirrorlist".toList, "http://m/list".toList)]⟩
          = Outcome.done ⟨conf,
              ⟨section_, [("baseurl".toList,
                "https://hoge.cloudfront.net//mirror-repo/remi/7/x86_64".toList)]⟩,
              ["yums3sync --source 'http://b/' --bucket 'hoge' --prefix '/mirror-repo/remi/7'".toList]⟩ :=
  ⟨defaultConfig, "remi".toList, ["http://a/x86_64/".toList, "http://b/".toList], 1,
    "http://a/x86_64/".toList, "http://b/".toList, by decide⟩

/-- C16 (counterexample): the header line
`<?xml version="1.0"?><url location="JP" x>http://h/</url>` contains
`<?xml version=`, the only `<url>` line has the location `US`, and `getUrls`
returns `["http://h/"]`, not the URL `http://u/` of the `<url>` line. -/
theorem getUrls_metalink_counterexample :
    splitLines ("<?xml version=\"1.0\"?><url location=\"JP\" x>http://h/</url>\n"
        ++ "<url protocol=\"http\" type=\"http\" location=\"US\" preference=\"100\">"
        ++ "http://u/</url>").toList
      = ["<?xml version=\"1.0\"?><url location=\"JP\" x>http://h/</url>".toList,
          UrlLine.render ⟨"http".toList, "http".toList, "US".toList, "100".toList,
            "http://u/".toList⟩] ∧
      contains "<?xml version=\"1.0\"?><url location=\"JP\" x>http://h/</url>".toList
        "<?xml version=".toList = true ∧
      UrlLine.wellFormed ⟨"http".toList, "http".toList, "US".toList, "100".toList,
        "http://u/".toList⟩ = true ∧
      getUrls ("<?xml version=\"1.0\"?><url location=\"JP\" x>http://h/</url>\n"
        ++ "<url protocol=\"http\" type=\"http\" location=\"US\" preference=\"100\">"
        ++ "http://u/</url>").toList = ["http://h/".toList] ∧
      getUrls ("<?xml version=\"1.0\"?><url location=\"JP\" x>http://h/</url>\n"
        ++ "<url protocol=\"http\" type=\"http\" location=\"US\" preference=\"100\">"
        ++ "http://u/</url>").toList ≠ ["http://u/".toList] := by
  decide

/-- C16 (amended): for every document that is a line containing `<?xml version=`
and no `location="`, followed by lines
`<url protocol="P" type="T" location="CC" preference="N">U</url>` (P, T, CC, N
non-empty and free of the double quote, `<` and `>`; U `http://` or `https://`
and at least one byte more, free of `<`, `>`, the double quote and the
newline): when some line has `CC = JP`, `getUrls` returns exactly the U of the
lines with `CC = JP` in document order; otherwise the U of all lines in document
order. -/
theorem getUrls_metalink (body header : Str) (ls : List UrlLine)
    (hdoc : splitLines body = header :: ls.map UrlLine.render)
    (hxml : contains header "<?xml version=".toList = true)
    (hloc : contains header "location=\"".toList = false)
    (hwf : ∀ l ∈ ls, l.wellFormed = true) :
    getUrls body =
      if ls.any (fun l => decide (l.location = "JP".toList)) = true
      then (ls.filter (fun l => decide (l.location = "JP".toList))).map UrlLine.url
      else ls.map UrlLine.url :=
  getUrls_of_lines body header ls hdoc hxml hloc hwf

theorem getUrls_metalink_witness :
    getUrls ("<?xml version=\"1.0\" encoding=\"utf-8\"?>\n"
        ++ "<url protocol=\"https\" type=\"https\" location=\"JP\" preference=\"100\">"
        ++ "https://ftp.riken.jp/x/repodata/repomd.xml</url>\n"
        ++ "<url protocol=\"http\" type=\"http\" location=\"US\" preference=\"99\">"
        ++ "http://b.us/x/repodata/repomd.xml</url>").toList
      = ["https://ftp.riken.jp/x/repodata/repomd.xml".toList] :=
  (getUrls_metalink _ "<?xml version=\"1.0\" encoding=\"utf-8\"?>".toList
    [⟨"https".toList, "https".toList, "JP".toList, "100".toList,
        "https://ftp.riken.jp/x/repodata/repomd.xml".toList⟩,
      ⟨"http".toList, "http".toList, "US".toList, "99".toList,
        "http://b.us/x/repodata/repomd.xml".toList⟩]
    (by decide) (by decide) (by decide) (by decide)).trans (by decide)

/-- C17 (counterexample): with the default configuration, section `remi` and
the single candidate `http://m/$basearch/os`, the command has the resolved
source `http://m/x86_64/os`, which contains `x86_64`, and the prefix
`/mirror-repo/remi/7`, which does not end with `x86_64`. -/
theorem make3syncCmdLine_arch_counterexample :
    make3syncCmdLine defaultConfig "remi".toList ["http://m/$basearch/os".toList] 0
        = Outcome.done
          "yums3sync --source 'http://m/x86_64/os' --bucket 'hoge' --prefix '/mirror-repo/remi/7'".toList ∧
      replaceURL defaultConfig "http://m/$basearch/os".toList = "http://m/x86_64/os".toList ∧
      contains (replaceURL defaultConfig "http://m/$basearch/os".toList) "x86_64".toList = true ∧
      makePath defaultConfig "remi".toList "http://m/$basearch/os".toList
        = "/mirror-repo/remi/7".toList ∧
      ¬ "x86_64".toList <:+ makePath defaultConfig "remi".toList "http://m/$basearch/os".toList := by
  decide

/-- C17 (amended): with Arch `x86_64` and ReleaseVer `7`, for every section,
non-empty candidate list and draw of the generator, the `--prefix` path of the
command built by `make3syncCmdLine` ends with the component `/x86_64` exactly
when the chosen candidate as it stands in the list, before template resolution,
contains `x86_64`; when it does, the resolved `--source` URL of the same command
contains `x86_64` too. -/
theorem make3syncCmdLine_arch (conf : config) (section_ : Str) (urls : List Str) (rnd : Nat)
    (hA : conf.Arch = "x86_64".toList) (hR : conf.ReleaseVer = "7".toList) (hne : urls ≠ []) :
    ∃ u, urls.get? (rnd % urls.length) = some u ∧
      make3syncCmdLine conf section_ urls rnd =
        Outcome.done ("yums3sync --source '".toList ++ replaceURL conf u
          ++ "' --bucket '".toList ++ conf.Bucket ++ "' --prefix '".toList
          ++ makePath conf section_ u ++ "'".toList) ∧
      ("/x86_64".toList <:+ makePath conf section_ u ↔ contains u "x86_64".toList = true) ∧
      (contains u "x86_64".toList = true →
        contains (replaceURL conf u) "x86_64".toList = true) := by
  have hlt : rnd % urls.length < urls.length := Nat.mod_lt _ (List.length_pos.mpr hne)
  refine ⟨urls.get ⟨rnd % urls.length, hlt⟩, List.get?_eq_get hlt,
    make3syncCmdLine_eq conf section_ urls rnd _ hlt rfl, ?_, contains_replaceURL_arch conf _⟩
  generalize urls.get ⟨rnd % urls.length, hlt⟩ = u
  have hs := makePath_suffix conf section_ u hA hR
  constructor
  · intro h
    cases hc : contains u "x86_64".toList with
    | true => rfl
    | false =>
      exfalso
      have h7 := hs.2 hc
      have n1 : ¬ "/x86_64".toList <:+ "7".toList := by decide
      have n2 : ¬ "7".toList <:+ "/x86_64".toList := by decide
      rcases List.suffix_or_suffix_of_suffix h h7 with h0 | h0
      · exact n1 h0
      · exact n2 h0
  · intro hc
    have h1 : "/x86_64".toList <:+ "7/x86_64".toList := by decide
    exact h1.trans (hs.1 hc)

theorem make3syncCmdLine_arch_witness :
    ∃ u, ["http://a/7/x86_64/".toList, "http://b/$basearch/".toList].get? (2 % 2) = some u ∧
      contains u "x86_64".toList = true ∧
      "/x86_64".toList <:+ makePath defaultConfig "remi".toList u := by
  obtain ⟨u, h1, _, h3, _⟩ := make3syncCmdLine_arch defaultConfig "remi".toList
    ["http://a/7/x86_64/".toList, "http://b/$basearch/".toList] 2 rfl rfl (by decide)
  have hu : u = "http://a/7/x86_64/".toList := by
    have h0 : ["http://a/7/x86_64/".toList, "http://b/$basearch/".toList].get? (2 % 2)
        = some "http://a/7/x86_64/".toList := by decide
    exact (Option.some.inj (h0.symm.trans h1)).symm
  have hc : contains u "x86_64".toList = true := by
    rw [hu]
    decide
  exact ⟨u, h1, hc, h3.mpr hc⟩

/-- C18: `getPriorityURL` returns a non-empty list exactly when its input is
non-empty; so on a non-empty candidate list the result has a first element and
`make3syncCmdLine` draws an index within it and returns a command. -/
theorem getPriorityURL_nonempty_iff (urls : List Str) :
    (getPriorityURL urls ≠ [] ↔ urls ≠ []) ∧
      (urls ≠ [] → ∀ (conf : config) (section_ : Str) (rnd : Nat),
        (∃ u0 rest, getPriorityURL urls = u0 :: rest) ∧
          rnd % (getPriorityURL urls).length < (getPriorityURL urls).length ∧
          ∃ cmd, make3syncCmdLine conf section_ (getPriorityURL urls) rnd = Outcome.done cmd) := by
  have hiff : getPriorityURL urls ≠ [] ↔ urls ≠ [] := by
    rw [getPriorityURL_eq]
    constructor
    · intro h hnil
      rw [hnil] at h
      simp at h
    · intro h
      split
      · assumption
      · split
        · assumption
        · split
          · assumption
          · exact h
  refine ⟨hiff, ?_⟩
  intro h conf section_ rnd
  have hne := hiff.mpr h
  have hpos : 0 < (getPriorityURL urls).length := List.length_pos.mpr hne
  have hlt : rnd % (getPriorityURL urls).length < (getPriorityURL urls).length :=
    Nat.mod_lt _ hpos
  refine ⟨?_, hlt, ?_⟩
  · cases hg : getPriorityURL urls with
    | nil => exact absurd hg hne
    | cons u0 rest => exact ⟨u0, rest, rfl⟩
  · exact ⟨_, make3syncCmdLine_eq conf section_ (getPriorityURL urls) rnd _ hlt rfl⟩

theorem getPriorityURL_nonempty_iff_witness :
    getPriorityURL ["http://a.jp/x".toList, "http://b.us/".toList] = ["http://a.jp/x".toList] ∧
      ∃ cmd, make3syncCmdLine defaultConfig "remi".toList
        (getPriorityURL ["http://a.jp/x".toList, "http://b.us/".toList]) 5 = Outcome.done cmd :=
  ⟨by decide,
   (((getPriorityURL_nonempty_iff ["http://a.jp/x".toList, "http://b.us/".toList]).2
      (by decide)) defaultConfig "remi".toList 5).2.2⟩

/-- C19: `getPriorityURL` is idempotent: applied to its own result it returns
that result. -/
theorem getPriorityURL_idempotent (urls : List Str) :
    getPriorityURL (getPriorityURL urls) = getPriorityURL urls := by
  by_cases h1 : urls.filter (matchString s3URLRe) = []
  · by_cases h2 : urls.filter (fun u => contains u ".jp/".toList) = []
    · by_cases h3 : urls.filter startsWithPriorityMirror = []
      · have e : getPriorityURL urls = urls := by
          rw [getPriorityURL_eq, if_neg (not_not.mpr h1), if_neg (not_not.mpr h2),
            if_neg (not_not.mpr h3)]
        rw [e, e]
      · have e : getPriorityURL urls = urls.filter startsWithPriorityMirror := by
          rw [getPriorityURL_eq, if_neg (not_not.mpr h1), if_neg (not_not.mpr h2), if_pos h3]
        rw [e, getPriorityURL_eq,
          if_neg (not_not.mpr (filter_filter_eq_nil _ _ urls h1)),
          if_neg (not_not.mpr (filter_filter_eq_nil _ _ urls h2)),
          filter_filter_self, if_pos h3]
    · have e : getPriorityURL urls = urls.filter (fun u => contains u ".jp/".toList) := by
        rw [getPriorityURL_eq, if_neg (not_not.mpr h1), if_pos h2]
      rw [e, getPriorityURL_eq, if_neg (not_not.mpr (filter_filter_eq_nil _ _ urls h1)),
        filter_filter_self, if_pos h2]
  · have e : getPriorityURL urls = urls.filter (matchString s3URLRe) := by
      rw [getPriorityURL_eq, if_pos h1]
    rw [e, getPriorityURL_eq, filter_filter_self, if_pos h1]

/-- C20: `replaceURL` returns unchanged every string that contains none of
`$basearch`, `$releasever`, `$infra` and `/repodata/repomd.xml`; so `makePath`
returns the joined path as it is whenever that path contains none of them. -/
theorem replaceURL_of_no_token :
    (∀ (conf : config) (s : Str),
        contains s "$basearch".toList = false → contains s "$releasever".toList = false →
        contains s "$infra".toList = false → contains s "/repodata/repomd.xml".toList = false →
        replaceURL conf s = s) ∧
      (∀ (conf : config) (section_ url p : Str),
        p = (if contains url conf.Arch
              then filepathJoin [conf.Prefix, section_, conf.ReleaseVer, conf.Arch]
              else filepathJoin [conf.Prefix, section_, conf.ReleaseVer]) →
        contains p "$basearch".toList = false → contains p "$releasever".toList = false →
        contains p "$infra".toList = false → contains p "/repodata/repomd.xml".toList = false →
        makePath conf section_ url = p) := by
  have h : ∀ (conf : config) (s : Str),
      contains s "$basearch".toList = false → contains s "$releasever".toList = false →
      contains s "$infra".toList = false → contains s "/repodata/repomd.xml".toList = false →
      replaceURL conf s = s := by
    intro conf s h1 h2 h3 h4
    unfold replaceURL
    simp only []
    rw [strReplace_of_not_contains s _ _ h1, strReplace_of_not_contains s _ _ h2,
      strReplace_of_not_contains s _ _ h3, strReplace_of_not_contains s _ _ h4]
  refine ⟨h, ?_⟩
  intro conf section_ url p hp h1 h2 h3 h4
  have e : makePath conf section_ url = replaceURL conf p := by
    rw [hp]
    unfold makePath
    split <;> rfl
  rw [e]
  exact h conf p h1 h2 h3 h4

theorem replaceURL_of_no_token_witness :
    replaceURL defaultConfig "http://m/7/x86_64/os".toList = "http://m/7/x86_64/os".toList ∧
      makePath defaultConfig "remi".toList "http://m/7/x86_64/os".toList
        = "/mirror-repo/remi/7/x86_64".toList :=
  ⟨replaceURL_of_no_token.1 defaultConfig _ (by decide) (by decide) (by decide) (by decide),
   replaceURL_of_no_token.2 defaultConfig _ _ _ (by decide) (by decide) (by decide) (by decide)
     (by decide)⟩

end RemakeRepo
